import Mathlib

/-!
Shallow embedding of the Path-ORAM engine, ORAM pool, standard pool and
router of the Attested Confidential Blackboard (ACB) repository
(`src/enclave/oram/path_oram.py`, `src/enclave/acb/router.py`,
`src/enclave/acb/standard_pool.py`), together with proofs about the
embedded definitions.

Modelling conventions:
* Python `bytes` values are `List Nat` (one entry per byte).
* Python `int` block IDs are `Int` (dummy blocks carry ID `-1`).
* `dict` fields are modelled as functions into `Option`.
* Randomness (`secrets.randbelow`, `os.urandom`) is modelled by passing
  the drawn values in explicitly: each `access` receives an `AccessRand`
  record holding the two leaf draws and the dummy-payload stream that the
  Python code would have sampled.  AES-GCM (`AESGCM.encrypt`/`decrypt`) is
  an external library primitive; it is modelled abstractly where it is
  actually invoked by the code (the standard pool), via a `seal` parameter.
-/

namespace ACB

/-- A single data block in the ORAM (`Block` dataclass): `block_id`,
`data`, `is_dummy`. -/
structure Block where
  block_id : Int
  data : List Nat
  is_dummy : Bool := false
deriving DecidableEq, Repr

/-- `Block.dummy(block_size)`: dummy block with ID `-1`.  The
`os.urandom(block_size)` payload is supplied explicitly as `bytes`. -/
def Block.dummyR (bytes : List Nat) : Block :=
  { block_id := -1, data := bytes, is_dummy := true }

/-- A bucket in the ORAM tree (`Bucket` dataclass): a list of blocks and
a capacity (the `Z` parameter). -/
structure Bucket where
  blocks : List Block
  capacity : Nat := 4
deriving DecidableEq, Repr

/-- `Bucket.add`: append the block if there is space; returns the updated
bucket together with the Python method's boolean result. -/
def Bucket.add (bk : Bucket) (b : Block) : Bucket × Bool :=
  if bk.blocks.length < bk.capacity then
    ({ bk with blocks := bk.blocks ++ [b] }, true)
  else
    (bk, false)

/-- `Bucket.get_real_blocks`: all non-dummy blocks. -/
def Bucket.getRealBlocks (bk : Bucket) : List Block :=
  bk.blocks.filter (fun b => !b.is_dummy)

/-- `Bucket.pad_to_capacity(block_size)`: append dummy blocks until the
bucket holds `capacity` blocks.  The random payload of the `i`-th new
dummy is `rnd i` (modelling `os.urandom(block_size)`). -/
def Bucket.padToCapacity (bk : Bucket) (rnd : Nat → List Nat) : Bucket :=
  { bk with
    blocks := bk.blocks ++
      (List.range (bk.capacity - bk.blocks.length)).map (fun i => Block.dummyR (rnd i)) }

/-- Fuel-indexed version of the parent-walking loop in
`PathORAM._get_path_indices`: collect `current`, stop at the root,
otherwise step to `(current - 1) / 2`.  The loop strictly decreases
`current`, so fuel `current` suffices; the fuel only makes the recursion
structural. -/
def pathLoopFuel : Nat → Nat → List Nat
  | 0, c => [c]
  | fuel + 1, c => c :: (if c = 0 then [] else pathLoopFuel fuel ((c - 1) / 2))

/-- The bucket indices from the tree slot `c` up to the root, in
leaf-to-root order (the Python loop before the final `reversed`). -/
def pathLoop (c : Nat) : List Nat :=
  pathLoopFuel c c

/-- `PathORAM._get_path_indices(leaf)`: bucket indices from the root to
the given leaf.  The leaf sits at tree index `2^height - 1 + leaf`. -/
def getPathIndices (height leaf : Nat) : List Nat :=
  (pathLoop ((2 ^ height - 1) + leaf)).reverse

/-- Fuel-indexed ceiling base-2 logarithm (an executable version of
`Nat.clog 2`, which is defined by well-founded recursion and does not
reduce in the kernel): `ceil(log2 n)` for `n ≥ 1`. -/
def ceilLog2Fuel : Nat → Nat → Nat
  | 0, _ => 0
  | fuel + 1, n => if n ≤ 1 then 0 else ceilLog2Fuel fuel ((n + 1) / 2) + 1

/-- `ceil(log2 n)`: `math.ceil(math.log2(num_blocks))` of the source. -/
def ceilLog2 (n : Nat) : Nat := ceilLog2Fuel n n

/-- State of a `PathORAM` engine: the construction parameters plus the
mutable fields `(tree, position_map, stash, access_count, stash_peak)`. -/
structure OramState where
  num_blocks : Nat
  block_size : Nat
  bucket_capacity : Nat
  height : Nat
  tree : List Bucket
  position_map : Int → Option Nat
  stash : List Block
  access_count : Nat
  stash_peak : Nat

/-- `2 ** height` leaves. -/
def OramState.numLeaves (st : OramState) : Nat := 2 ^ st.height

/-- `2 ** (height + 1) - 1` buckets. -/
def OramState.numBuckets (st : OramState) : Nat := 2 ^ (st.height + 1) - 1

/-- `PathORAM.__init__`: derive the height, allocate `num_buckets` empty
buckets of capacity `bucket_capacity`, empty position map and stash.
(The `encryption_key` / `AESGCM` fields play no role in the engine's
behaviour — `access` never invokes `_encrypt_block` / `_decrypt_block` —
so they are not part of the state.) -/
def PathORAM.init (num_blocks block_size bucket_capacity : Nat) : OramState :=
  let height := if num_blocks > 1 then max 1 (ceilLog2 num_blocks) else 1
  { num_blocks := num_blocks
    block_size := block_size
    bucket_capacity := bucket_capacity
    height := height
    tree := List.replicate (2 ^ (height + 1) - 1) { blocks := [], capacity := bucket_capacity }
    position_map := fun _ => none
    stash := []
    access_count := 0
    stash_peak := 0 }

/-- `PathORAM._can_place_on_path(block_id, bucket_idx)`: the block is in
the position map and `bucket_idx` lies on the path to its leaf. -/
def canPlaceOnPath (pm : Int → Option Nat) (height : Nat) (block_id : Int)
    (bucket_idx : Nat) : Bool :=
  match pm block_id with
  | none => false
  | some leaf => (getPathIndices height leaf).contains bucket_idx

/-- Step 3 of `access`: for each path index, move the real blocks of the
bucket into the stash and clear the bucket. -/
def readPath : List Bucket → List Block → List Nat → List Bucket × List Block
  | tree, stash, [] => (tree, stash)
  | tree, stash, idx :: rest =>
      let bucket := tree.getD idx { blocks := [], capacity := 0 }
      readPath (tree.set idx { bucket with blocks := [] })
        (stash ++ bucket.getRealBlocks) rest

/-- Step 4 of `access`: scan the stash for `block_id`; on a read record
the payload, on a write replace the block in place.  Returns the updated
stash, the `result_data`, and the `target_found` flag. -/
def findUpdate (op : String) (block_id : Int) (new_data : Option (List Nat)) :
    List Block → List Block × Option (List Nat) × Bool
  | [] => ([], none, false)
  | b :: rest =>
      if b.block_id = block_id then
        if op = "read" then (b :: rest, some b.data, true)
        else if op = "write" ∧ new_data.isSome then
          ({ block_id := block_id, data := new_data.getD [] } :: rest, none, true)
        else (b :: rest, none, true)
      else
        let f := findUpdate op block_id new_data rest
        (b :: f.1, f.2.1, f.2.2)

/-- The per-bucket eviction loop in step 5 of `access`: walk the stash in
order; a non-dummy block that can be placed in bucket `bucket_idx` and
for which `Bucket.add` succeeds is moved into the bucket, every other
block is kept (in order) in the remaining stash. -/
def evictLoop (pm : Int → Option Nat) (height bucket_idx : Nat) :
    Bucket → List Block → Bucket × List Block
  | bk, [] => (bk, [])
  | bk, b :: rest =>
      if !b.is_dummy ∧ canPlaceOnPath pm height b.block_id bucket_idx then
        if (bk.add b).2 then evictLoop pm height bucket_idx (bk.add b).1 rest
        else
          let e := evictLoop pm height bucket_idx bk rest
          (e.1, b :: e.2)
      else
        let e := evictLoop pm height bucket_idx bk rest
        (e.1, b :: e.2)

/-- Step 5 of `access`: traverse the given bucket indices (the reversed
path, leaf to root), evict eligible stash blocks into each bucket, pad
the bucket with dummies, and write it back.  `dummyRnd k` is the dummy
payload stream for the `k`-th processed bucket. -/
def writeBackLoop (pm : Int → Option Nat) (height : Nat)
    (dummyRnd : Nat → Nat → List Nat) :
    Nat → List Nat → List Bucket → List Block → List Bucket × List Block
  | _, [], tree, stash => (tree, stash)
  | k, idx :: rest, tree, stash =>
      let bucket := tree.getD idx { blocks := [], capacity := 0 }
      let e := evictLoop pm height idx bucket stash
      let bk' := e.1.padToCapacity (dummyRnd k)
      writeBackLoop pm height dummyRnd (k + 1) rest (tree.set idx bk') e.2

/-- The randomness consumed by one `access`: the `secrets.randbelow`
draw used when the block ID is not yet mapped, the remap draw, and the
`os.urandom` payloads of the dummies created during write-back
(`dummy k i` = payload of the `i`-th dummy added to the `k`-th bucket
processed, leaf to root). -/
structure AccessRand where
  oldLeaf : Nat
  newLeaf : Nat
  dummy : Nat → Nat → List Nat

/-- Step 1 of `access`: the leaf whose path is read — the mapped leaf,
or the fresh `secrets.randbelow` draw when the block is unmapped. -/
def oldLeafOf (st : OramState) (block_id : Int) (r : AccessRand) : Nat :=
  match st.position_map block_id with
  | some l => l
  | none => r.oldLeaf

/-- Steps 1–2 of `access` on the position map: record the (possibly
fresh) old leaf, then immediately remap the block to the new draw. -/
def pmStep2 (st : OramState) (block_id : Int) (r : AccessRand) : Int → Option Nat :=
  let pm1 : Int → Option Nat :=
    fun x => if x = block_id then some (oldLeafOf st block_id r) else st.position_map x
  fun x => if x = block_id then some r.newLeaf else pm1 x

/-- `PathORAM.access(op, block_id, new_data)`: the oblivious access.
Returns the new engine state and `result_data`. -/
def access (st : OramState) (op : String) (block_id : Int)
    (new_data : Option (List Nat)) (r : AccessRand) : OramState × Option (List Nat) :=
  -- self.access_count += 1
  let count := st.access_count + 1
  -- Steps 1–2: position lookup and remap to a new random leaf
  let old_leaf := oldLeafOf st block_id r
  let pm2 := pmStep2 st block_id r
  -- Step 3: read the path to old_leaf into the stash
  let path := getPathIndices st.height old_leaf
  let rp := readPath st.tree st.stash path
  -- Step 4: find and update the target block in the stash
  let fu := findUpdate op block_id new_data rp.2
  let stash3 :=
    match new_data with
    | some d => if ¬fu.2.2 ∧ op = "write" then fu.1 ++ [{ block_id := block_id, data := d }] else fu.1
    | none => fu.1
  -- Step 5: write the path back, leaf to root, with eviction and padding
  let wb := writeBackLoop pm2 st.height r.dummy 0 path.reverse rp.1 stash3
  ({ st with
      tree := wb.1
      position_map := pm2
      stash := wb.2
      access_count := count
      stash_peak := max st.stash_peak wb.2.length },
    fu.2.1)

/-- `PathORAM.read(block_id)`. -/
def OramState.read (st : OramState) (block_id : Int) (r : AccessRand) :
    OramState × Option (List Nat) :=
  access st "read" block_id none r

/-- The pad/truncate step of `PathORAM.write`: right-pad with zero bytes
to `block_size`, truncate if longer. -/
def padTrunc (block_size : Nat) (data : List Nat) : List Nat :=
  if data.length < block_size then
    data ++ List.replicate (block_size - data.length) 0
  else if data.length > block_size then
    data.take block_size
  else data

/-- `PathORAM.write(block_id, data)`: pad with zero bytes (or truncate)
to `block_size`, then do a write access. -/
def OramState.write (st : OramState) (block_id : Int) (data : List Nat)
    (r : AccessRand) : OramState :=
  (access st "write" block_id (some (padTrunc st.block_size data)) r).1

/-- Run a list of accesses (`op`, `block_id`, `new_data`, randomness)
through the engine, dropping the returned payloads. -/
structure AccessStep where
  op : String
  block_id : Int
  new_data : Option (List Nat)
  rand : AccessRand

/-- Fold a list of accesses over the engine state. -/
def runAccesses (st : OramState) : List AccessStep → OramState
  | [] => st
  | s :: rest => runAccesses (access st s.op s.block_id s.new_data s.rand).1 rest

/-! ### ORAM pool (`ORAMPool`) -/

/-- State of an `ORAMPool`: the engine plus `key_to_id` and `next_id`. -/
structure PoolState where
  oram : OramState
  key_to_id : String → Option Int
  next_id : Int

/-- `ORAMPool.__init__(capacity, block_size)`: engine with
`num_blocks = capacity` and the `PathORAM` default `Z = 4`. -/
def ORAMPool.init (capacity block_size : Nat) : PoolState :=
  { oram := PathORAM.init capacity block_size 4
    key_to_id := fun _ => none
    next_id := 0 }

/-- `ORAMPool._get_block_id(key)`: existing ID, or assign `next_id` and
increment it. -/
def ORAMPool.getBlockId (p : PoolState) (key : String) : PoolState × Int :=
  match p.key_to_id key with
  | some i => (p, i)
  | none =>
      ({ p with
          key_to_id := fun k => if k = key then some p.next_id else p.key_to_id k
          next_id := p.next_id + 1 },
        p.next_id)

/-- Metrics dict returned by `ORAMPool.store`. -/
structure StoreMetrics where
  pool : String
  access_count : Nat
  path_length : Nat
deriving DecidableEq, Repr

/-- Metrics dict returned by `ORAMPool.retrieve` (the `found`/
`access_count` keys are only present in some branches, hence `Option`). -/
structure RetrieveMetrics where
  pool : String
  found : Option Bool
  access_count : Option Nat
deriving DecidableEq, Repr

/-- `ORAMPool.store(key, value)`. -/
def ORAMPool.store (p : PoolState) (key : String) (value : List Nat)
    (r : AccessRand) : PoolState × StoreMetrics :=
  let g := ORAMPool.getBlockId p key
  let p1 := g.1
  let oram' := p1.oram.write g.2 value r
  ({ p1 with oram := oram' },
    { pool := "oram", access_count := oram'.access_count, path_length := oram'.height + 1 })

/-- `bytes.rstrip(b'\x00')`: drop trailing zero bytes. -/
def rstripZeros (d : List Nat) : List Nat :=
  (d.reverse.dropWhile (fun b => b = 0)).reverse

/-- `ORAMPool.retrieve(key)`: `(None, found:false)` when the key is
unknown (no engine access); otherwise read the block, strip trailing
zeros (Python `if data:` skips the strip for `None` and for `b''`). -/
def ORAMPool.retrieve (p : PoolState) (key : String) (r : AccessRand) :
    PoolState × Option (List Nat) × RetrieveMetrics :=
  match p.key_to_id key with
  | none => (p, none, { pool := "oram", found := some false, access_count := none })
  | some block_id =>
      let rd := p.oram.read block_id r
      let data' := match rd.2 with
        | none => none
        | some d => if d = [] then some d else some (rstripZeros d)
      ({ p with oram := rd.1 }, data',
        { pool := "oram", found := some true, access_count := some rd.1.access_count })

/-! ### Standard pool (`StandardPool`)

The AES-GCM primitive is external to the repository; it is abstracted by
an `enc` parameter (`enc nonce plaintext` = `AESGCM.encrypt(nonce, pt)`),
so a sealed value keeps the code's `nonce ‖ ciphertext` layout. -/

/-- State of a `StandardPool`: `storage` and `access_count`. -/
structure StdState where
  storage : String → Option (List Nat)
  access_count : Nat

/-- Fresh `StandardPool`. -/
def StdPool.init : StdState :=
  { storage := fun _ => none, access_count := 0 }

/-- `StandardPool.store(key, value)`: seal under a fresh nonce and store
`nonce ‖ ciphertext`. -/
def StdPool.store (enc : List Nat → List Nat → List Nat) (s : StdState)
    (key : String) (value : List Nat) (nonce : List Nat) : StdState :=
  let encrypted := nonce ++ enc nonce value
  { storage := fun k => if k = key then some encrypted else s.storage k
    access_count := s.access_count + 1 }

/-- `StandardPool.retrieve(key)`: increment the counter, then decrypt if
present (`dec nonce ct` abstracts `AESGCM.decrypt`). -/
def StdPool.retrieve (dec : List Nat → List Nat → List Nat) (s : StdState)
    (key : String) : StdState × Option (List Nat) :=
  let s' := { s with access_count := s.access_count + 1 }
  match s.storage key with
  | none => (s', none)
  | some encrypted => (s', some (dec (encrypted.take 12) (encrypted.drop 12)))

/-! ### Router (`ACBRouter`) -/

/-- `ACBRouter.SENSITIVE_PREFIXES`. -/
def SENSITIVE_PREFIXES : List String :=
  ["session_key:", "ephemeral:", "secret:", "credential:", "private:", "token:"]

/-- `str.lower()` (character-wise lower-casing; matches Python on the
ASCII range).  `String.toLower` itself does not reduce in the kernel, so
the list-level equivalent is used. -/
def strLower (s : String) : String := ⟨s.data.map Char.toLower⟩

/-- `str.startswith(p)` as a list-prefix test. -/
def strStartsWith (s p : String) : Bool := p.data.isPrefixOf s.data

/-- `ACBRouter._is_sensitive(key)`: lower-case the key and test each
sensitive prefix as a leading substring. -/
def isSensitive (key : String) : Bool :=
  SENSITIVE_PREFIXES.any (fun p => strStartsWith (strLower key) p)

/-- Router state: the two pools plus the routing counters. -/
structure RouterState where
  oram_pool : PoolState
  standard_pool : StdState
  oram_routes : Nat
  standard_routes : Nat

/-- Fresh `ACBRouter`. -/
def Router.init (oram_capacity oram_block_size : Nat) : RouterState :=
  { oram_pool := ORAMPool.init oram_capacity oram_block_size
    standard_pool := StdPool.init
    oram_routes := 0
    standard_routes := 0 }

/-- The `routed_to` / `reason` annotations `ACBRouter.store` adds to the
pool's metrics. -/
structure RouteResult where
  routed_to : String
  reason : String
deriving DecidableEq, Repr

/-- `ACBRouter.store(key, value)`: dispatch on sensitivity, bump the
matching routing counter. -/
def Router.store (enc : List Nat → List Nat → List Nat) (rs : RouterState)
    (key : String) (value : List Nat) (r : AccessRand) (nonce : List Nat) :
    RouterState × RouteResult :=
  if isSensitive key then
    let p' := (ORAMPool.store rs.oram_pool key value r).1
    ({ rs with oram_pool := p', oram_routes := rs.oram_routes + 1 },
      { routed_to := "oram", reason := "sensitive_prefix" })
  else
    let s' := StdPool.store enc rs.standard_pool key value nonce
    ({ rs with standard_pool := s', standard_routes := rs.standard_routes + 1 },
      { routed_to := "standard", reason := "non_sensitive" })

/-- `ACBRouter.retrieve(key)`: dispatch on sensitivity; the routing
counters are untouched.  Returns the new state, the payload and the
`routed_from` annotation. -/
def Router.retrieve (dec : List Nat → List Nat → List Nat) (rs : RouterState)
    (key : String) (r : AccessRand) :
    RouterState × Option (List Nat) × String :=
  if isSensitive key then
    let q := ORAMPool.retrieve rs.oram_pool key r
    ({ rs with oram_pool := q.1 }, q.2.1, "oram")
  else
    let q := StdPool.retrieve dec rs.standard_pool key
    ({ rs with standard_pool := q.1 }, q.2, "standard")

/-- `total_routes` as computed by `ACBRouter.get_metrics`. -/
def Router.totalRoutes (rs : RouterState) : Nat :=
  rs.oram_routes + rs.standard_routes

/-! ## Semantic helpers: the blocks held by an engine state -/

/-- All blocks stored in the tree, bucket by bucket. -/
def treeBlocks (tree : List Bucket) : List Block :=
  (tree.map Bucket.blocks).flatten

/-- Keep only the real (non-dummy) blocks. -/
def filterReal (l : List Block) : List Block :=
  l.filter (fun b => !b.is_dummy)

/-- The real blocks currently live in the engine (stash and tree). -/
def liveBlocks (st : OramState) : List Block :=
  filterReal (st.stash ++ treeBlocks st.tree)

/-- IDs of the real blocks of a list. -/
def realIds (l : List Block) : List Int :=
  (filterReal l).map Block.block_id

/-- The payload of the unique live block with the given ID, if any. -/
def liveData (st : OramState) (id : Int) : Option (List Nat) :=
  ((liveBlocks st).find? (fun b => b.block_id == id)).map Block.data

/-- Hypothesis on the modelled `secrets.randbelow(num_leaves)` draws:
both are in range. -/
def validRand (st : OramState) (r : AccessRand) : Prop :=
  r.oldLeaf < st.numLeaves ∧ r.newLeaf < st.numLeaves

instance (st : OramState) (r : AccessRand) : Decidable (validRand st r) :=
  inferInstanceAs (Decidable (r.oldLeaf < st.numLeaves ∧ r.newLeaf < st.numLeaves))

/-- The engine invariant: well-formed tree shape, every stash block is a
real mapped block, every real tree block sits on the path to its mapped
leaf, and real block IDs are globally unique. -/
structure WF (st : OramState) : Prop where
  height_pos : 1 ≤ st.height
  tree_len : st.tree.length = st.numBuckets
  cap_eq : ∀ i (h : i < st.tree.length), st.tree[i].capacity = st.bucket_capacity
  bucket_size : ∀ i (h : i < st.tree.length), st.tree[i].blocks.length ≤ st.bucket_capacity
  pm_lt : ∀ id l, st.position_map id = some l → l < st.numLeaves
  stash_real : ∀ b ∈ st.stash, b.is_dummy = false
  stash_mapped : ∀ b ∈ st.stash, (st.position_map b.block_id).isSome
  tree_placed : ∀ i (h : i < st.tree.length), ∀ b ∈ st.tree[i].blocks, b.is_dummy = false →
      ∃ l, st.position_map b.block_id = some l ∧ l < st.numLeaves ∧
        i ∈ getPathIndices st.height l
  ids_nodup : (realIds (st.stash ++ treeBlocks st.tree)).Nodup

/-- Eligibility of a stash block for a bucket, exactly the guard of the
eviction loop: real, and the bucket lies on the path to the block's
currently mapped leaf. -/
def eligB (pm : Int → Option Nat) (height bucket_idx : Nat) (b : Block) : Bool :=
  !b.is_dummy && canPlaceOnPath pm height b.block_id bucket_idx

/-- Spec-side description of the stash left behind by one eviction pass:
skip the first `free` eligible blocks (they are packed into the bucket),
keep everything else in order. -/
def remAfter (elig : Block → Bool) : Nat → List Block → List Block
  | _, [] => []
  | free, b :: rest =>
      if elig b then
        if free = 0 then b :: remAfter elig 0 rest
        else remAfter elig (free - 1) rest
      else b :: remAfter elig free rest

/-- The stash contents right before the write-back step of `access`
(after the path read and the target update/creation); names the
intermediate value of `access` so that theorems can refer to it. -/
def accessStash3 (st : OramState) (op : String) (block_id : Int)
    (new_data : Option (List Nat)) (r : AccessRand) : List Block :=
  let path := getPathIndices st.height (oldLeafOf st block_id r)
  let rp := readPath st.tree st.stash path
  let fu := findUpdate op block_id new_data rp.2
  match new_data with
  | some d =>
      if ¬fu.2.2 ∧ op = "write" then fu.1 ++ [{ block_id := block_id, data := d }] else fu.1
  | none => fu.1

/-- One `ORAMPool` operation together with the randomness its underlying
engine access consumes. -/
inductive PoolOp where
  | store (key : String) (value : List Nat) (rand : AccessRand)
  | retrieve (key : String) (rand : AccessRand)

/-- The randomness of a pool operation. -/
def PoolOp.rand : PoolOp → AccessRand
  | PoolOp.store _ _ r => r
  | PoolOp.retrieve _ r => r

/-- Run a sequence of pool operations, dropping the outputs. -/
def runPool (p : PoolState) : List PoolOp → PoolState
  | [] => p
  | PoolOp.store k v r :: rest => runPool (ORAMPool.store p k v r).1 rest
  | PoolOp.retrieve k r :: rest => runPool (ORAMPool.retrieve p k r).1 rest

/-- The value of the last `store` to key `k` in the sequence, if any. -/
def lastStored (k : String) : List PoolOp → Option (List Nat)
  | [] => none
  | op :: rest =>
      match lastStored k rest with
      | some v => some v
      | none =>
          match op with
          | PoolOp.store k' v _ => if k' = k then some v else none
          | PoolOp.retrieve _ _ => none

/-- Ghost map: the effect of one pool operation on the last-stored
map. -/
def modelStep (m : String → Option (List Nat)) : PoolOp → String → Option (List Nat)
  | PoolOp.store k v _ => fun x => if x = k then some v else m x
  | PoolOp.retrieve _ _ => m

/-- Ghost map: fold `modelStep` over an operation sequence. -/
def modelRun (m : String → Option (List Nat)) : List PoolOp → String → Option (List Nat)
  | [] => m
  | op :: rest => modelRun (modelStep m op) rest

/-- An access step of the public engine surface: either a `read` (no
payload) or a `write` with a payload — the only two shapes produced by
the `read`/`write` wrappers. -/
def AccessStep.wf (s : AccessStep) : Prop :=
  (s.op = "read" ∧ s.new_data = none) ∨ (s.op = "write" ∧ s.new_data.isSome = true)

instance (s : AccessStep) : Decidable s.wf :=
  inferInstanceAs (Decidable ((s.op = "read" ∧ s.new_data = none) ∨
    (s.op = "write" ∧ s.new_data.isSome = true)))

/-- The refinement relation between an `ORAMPool` and the naive
last-stored map: the engine invariant holds, assigned block IDs are
below `next_id` and distinct keys get distinct IDs, and every stored
key's block holds the zero-padded last-stored value. -/
structure PoolInv (p : PoolState) (m : String → Option (List Nat)) : Prop where
  wf : WF p.oram
  next_nonneg : 0 ≤ p.next_id
  ids_lt : ∀ k i, p.key_to_id k = some i → 0 ≤ i ∧ i < p.next_id
  inj : ∀ k k' i, p.key_to_id k = some i → p.key_to_id k' = some i → k = k'
  data : ∀ k v, m k = some v → ∃ i, p.key_to_id k = some i ∧
      liveData p.oram i = some (padTrunc p.oram.block_size v)

/-- A workload of `n` writes to pairwise-distinct fresh block IDs
`0, …, n−1`, each with payload `[0]` and all leaf draws 0. -/
def freshWriteSteps (n : Nat) : List AccessStep :=
  ((List.range n).map (fun i : Nat => (i : Int))).map (fun i =>
    { op := "write", block_id := i, new_data := some [0],
      rand := ⟨0, 0, fun _ _ => [7]⟩ })

/-! ## Lemmas about the path-index computation -/

theorem pathLoopFuel_eq (f1 : Nat) : ∀ f2 c, c ≤ f1 → c ≤ f2 →
    pathLoopFuel f1 c = pathLoopFuel f2 c := by
  induction f1 with
  | zero =>
      intro f2 c h1 _
      interval_cases c
      cases f2 <;> simp [pathLoopFuel]
  | succ f ih =>
      intro f2 c h1 h2
      cases f2 with
      | zero =>
          interval_cases c
          simp [pathLoopFuel]
      | succ g =>
          by_cases hc : c = 0
          · subst hc; simp [pathLoopFuel]
          · simp only [pathLoopFuel, if_neg hc]
            rw [ih g ((c - 1) / 2) (by omega) (by omega)]

/-- Unfolding equation for `pathLoop` as the source's loop would compute
it. -/
theorem pathLoop_unfold (c : Nat) :
    pathLoop c = c :: (if c = 0 then [] else pathLoop ((c - 1) / 2)) := by
  by_cases hc : c = 0
  · subst hc; simp [pathLoop, pathLoopFuel]
  · obtain ⟨n, rfl⟩ : ∃ n, c = n + 1 := ⟨c - 1, by omega⟩
    simp only [pathLoop, pathLoopFuel, if_neg hc]
    rw [pathLoopFuel_eq n ((n + 1 - 1) / 2) ((n + 1 - 1) / 2) (by omega) (by omega)]

theorem pathLoop_mem_le (c : Nat) : ∀ x ∈ pathLoop c, x ≤ c := by
  induction c using Nat.strong_induction_on with
  | _ c ih =>
      intro x hx
      rw [pathLoop_unfold, List.mem_cons] at hx
      rcases hx with rfl | hx
      · omega
      · by_cases hc : c = 0
        · simp [hc] at hx
        · rw [if_neg hc] at hx
          have := ih ((c - 1) / 2) (by omega) x hx
          omega

theorem pathLoop_zero_mem (c : Nat) : 0 ∈ pathLoop c := by
  induction c using Nat.strong_induction_on with
  | _ c ih =>
      rw [pathLoop_unfold]
      by_cases hc : c = 0
      · simp [hc]
      · rw [if_neg hc]
        exact List.mem_cons_of_mem _ (ih ((c - 1) / 2) (by omega))

theorem pathLoop_sorted (c : Nat) : (pathLoop c).Sorted (· > ·) := by
  induction c using Nat.strong_induction_on with
  | _ c ih =>
      rw [pathLoop_unfold]
      by_cases hc : c = 0
      · simp [hc, List.Sorted]
      · rw [if_neg hc]
        refine List.sorted_cons.mpr ⟨?_, ih ((c - 1) / 2) (by omega)⟩
        intro x hx
        have := pathLoop_mem_le _ x hx
        omega

theorem pathLoop_nodup (c : Nat) : (pathLoop c).Nodup :=
  (pathLoop_sorted c).nodup

theorem pathLoop_length (l : Nat) : ∀ c, 2 ^ l - 1 ≤ c → c < 2 ^ (l + 1) - 1 →
    (pathLoop c).length = l + 1 := by
  induction l with
  | zero =>
      intro c _ h2
      interval_cases c
      simp [pathLoop, pathLoopFuel]
  | succ l ih =>
      intro c h1 h2
      have hp : 0 < 2 ^ l := Nat.pos_pow_of_pos _ (by omega)
      have e1 : 2 ^ (l + 1) = 2 * 2 ^ l := by ring
      have e2 : 2 ^ (l + 1 + 1) = 4 * 2 ^ l := by ring
      have hc : c ≠ 0 := by omega
      rw [pathLoop_unfold, if_neg hc]
      have := ih ((c - 1) / 2) (by omega) (by omega)
      simp [this]

/-- The path from the root to a valid leaf has length `height + 1`. -/
theorem getPathIndices_length (h leaf : Nat) (hl : leaf < 2 ^ h) :
    (getPathIndices h leaf).length = h + 1 := by
  have hp : 0 < 2 ^ h := Nat.pos_pow_of_pos _ (by omega)
  have e1 : 2 ^ (h + 1) = 2 * 2 ^ h := by ring
  unfold getPathIndices
  rw [List.length_reverse]
  exact pathLoop_length h _ (by omega) (by omega)

/-- Every index on the path to a valid leaf is a valid tree index. -/
theorem getPathIndices_lt (h leaf : Nat) (hl : leaf < 2 ^ h) :
    ∀ i ∈ getPathIndices h leaf, i < 2 ^ (h + 1) - 1 := by
  intro i hi
  have hp : 0 < 2 ^ h := Nat.pos_pow_of_pos _ (by omega)
  have e1 : 2 ^ (h + 1) = 2 * 2 ^ h := by ring
  unfold getPathIndices at hi
  rw [List.mem_reverse] at hi
  have := pathLoop_mem_le _ i hi
  omega

theorem getPathIndices_nodup (h leaf : Nat) : (getPathIndices h leaf).Nodup := by
  unfold getPathIndices
  rw [List.nodup_reverse]
  exact pathLoop_nodup _

/-- The leaf's own tree slot lies on its path. -/
theorem getPathIndices_mem_leafIdx (h leaf : Nat) :
    (2 ^ h - 1 + leaf) ∈ getPathIndices h leaf := by
  unfold getPathIndices
  rw [List.mem_reverse, pathLoop_unfold]
  exact List.mem_cons_self _ _

/-! ## Lemmas about the path-read step -/

theorem readPath_tree_length : ∀ (path : List Nat) (tree : List Bucket) (stash : List Block),
    (readPath tree stash path).1.length = tree.length := by
  intro path
  induction path with
  | nil => intro tree stash; rfl
  | cons idx rest ih =>
      intro tree stash
      simp only [readPath]
      rw [ih, List.length_set]

theorem readPath_tree_notMem : ∀ (path : List Nat) (tree : List Bucket) (stash : List Block)
    (j : Nat), j ∉ path → (readPath tree stash path).1[j]? = tree[j]? := by
  intro path
  induction path with
  | nil => intro tree stash j _; rfl
  | cons idx rest ih =>
      intro tree stash j hj
      have hne : idx ≠ j := fun h => hj (by rw [← h]; exact List.mem_cons_self _ _)
      simp only [readPath]
      rw [ih _ _ j (fun h => hj (List.mem_cons_of_mem _ h)), List.getElem?_set_ne hne]

theorem readPath_tree_mem : ∀ (path : List Nat) (tree : List Bucket) (stash : List Block)
    (j : Nat), j ∈ path → path.Nodup →
    (readPath tree stash path).1[j]? = tree[j]?.map (fun bk => { bk with blocks := [] }) := by
  intro path
  induction path with
  | nil => intro tree stash j hj; exact absurd hj (List.not_mem_nil _)
  | cons idx rest ih =>
      intro tree stash j hj hnd
      rw [List.nodup_cons] at hnd
      simp only [readPath]
      rcases List.mem_cons.mp hj with rfl | hj
      · rw [readPath_tree_notMem _ _ _ _ hnd.1]
        by_cases hlt : j < tree.length
        · rw [List.getElem?_set_self hlt, List.getElem?_eq_getElem hlt]
          simp [List.getD_eq_getElem?_getD, List.getElem?_eq_getElem hlt]
        · have hle : tree.length ≤ j := by omega
          rw [List.getElem?_eq_none (by simpa [List.length_set] using hle),
            List.getElem?_eq_none hle]
          rfl
      · by_cases hij : idx = j
        · exact absurd (hij ▸ hj) hnd.1
        · rw [ih _ _ j hj hnd.2, List.getElem?_set_ne hij]

theorem readPath_stash : ∀ (path : List Nat) (tree : List Bucket) (stash : List Block),
    path.Nodup →
    (readPath tree stash path).2 =
      stash ++ (path.map (fun i =>
        (tree.getD i { blocks := [], capacity := 0 }).getRealBlocks)).flatten := by
  intro path
  induction path with
  | nil => intro tree stash _; simp [readPath]
  | cons idx rest ih =>
      intro tree stash hnd
      rw [List.nodup_cons] at hnd
      simp only [readPath]
      rw [ih _ _ hnd.2]
      have hmap : rest.map (fun i =>
          ((tree.set idx { tree.getD idx { blocks := [], capacity := 0 } with
              blocks := [] }).getD i { blocks := [], capacity := 0 }).getRealBlocks) =
          rest.map (fun i => (tree.getD i { blocks := [], capacity := 0 }).getRealBlocks) := by
        apply List.map_congr_left
        intro i hi
        have hne : idx ≠ i := fun h => hnd.1 (h ▸ hi)
        simp [List.getD_eq_getElem?_getD, List.getElem?_set_ne hne]
      rw [hmap]
      simp [List.append_assoc]

theorem treeBlocks_set (tree : List Bucket) (idx : Nat) (bk : Bucket)
    (h : idx < tree.length) :
    treeBlocks (tree.set idx bk) =
      treeBlocks (tree.take idx) ++ bk.blocks ++ treeBlocks (tree.drop (idx + 1)) := by
  rw [List.set_eq_take_append_cons_drop, if_pos h]
  simp [treeBlocks, List.append_assoc]

theorem treeBlocks_decomp (tree : List Bucket) (idx : Nat) (h : idx < tree.length) :
    treeBlocks tree =
      treeBlocks (tree.take idx) ++ tree[idx].blocks ++ treeBlocks (tree.drop (idx + 1)) := by
  conv_lhs => rw [← List.take_append_drop idx tree, ← List.getElem_cons_drop tree idx h]
  simp only [treeBlocks, List.map_append, List.flatten_append, List.map_cons,
    List.flatten_cons, List.append_assoc]

/-- Clearing one bucket moves exactly its real blocks out of the
tree. -/
theorem clear_bucket_perm (tree : List Bucket) (idx : Nat) (hidx : idx < tree.length) :
    (filterReal (treeBlocks (tree.set idx
        { tree.getD idx { blocks := [], capacity := 0 } with blocks := [] })) ++
      (tree.getD idx { blocks := [], capacity := 0 }).getRealBlocks).Perm
      (filterReal (treeBlocks tree)) := by
  have hgd : tree.getD idx { blocks := [], capacity := 0 } = tree[idx] := by
    rw [List.getD_eq_getElem?_getD, List.getElem?_eq_getElem hidx]; rfl
  rw [hgd]
  rw [treeBlocks_set tree idx _ hidx, treeBlocks_decomp tree idx hidx]
  rw [← Multiset.coe_eq_coe]
  simp only [filterReal, Bucket.getRealBlocks, List.filter_append, List.filter_nil,
    ← Multiset.coe_add]
  rw [show ((([] : List Block) : Multiset Block) = 0) from rfl]
  abel

/-- Clearing the buckets along the path moves exactly their real blocks
out of the tree: conservation of real blocks through the path-read
step. -/
theorem readPath_perm : ∀ (path : List Nat) (tree : List Bucket) (stash : List Block),
    path.Nodup → (∀ i ∈ path, i < tree.length) →
    (filterReal (treeBlocks (readPath tree stash path).1) ++
      (path.map (fun i =>
        (tree.getD i { blocks := [], capacity := 0 }).getRealBlocks)).flatten).Perm
      (filterReal (treeBlocks tree)) := by
  intro path
  induction path with
  | nil => intro tree stash _ _; simp [readPath]
  | cons idx rest ih =>
      intro tree stash hnd hlt
      rw [List.nodup_cons] at hnd
      have hidx : idx < tree.length := hlt idx (List.mem_cons_self _ _)
      simp only [readPath]
      have hmap : rest.map (fun i =>
          ((tree.set idx { tree.getD idx { blocks := [], capacity := 0 } with
              blocks := [] }).getD i { blocks := [], capacity := 0 }).getRealBlocks) =
          rest.map (fun i => (tree.getD i { blocks := [], capacity := 0 }).getRealBlocks) := by
        apply List.map_congr_left
        intro i hi
        have hne : idx ≠ i := fun h => hnd.1 (h ▸ hi)
        simp [List.getD_eq_getElem?_getD, List.getElem?_set_ne hne]
      have ihr := ih (tree.set idx { tree.getD idx { blocks := [], capacity := 0 } with
          blocks := [] }) (stash ++ (tree.getD idx { blocks := [], capacity := 0 }).getRealBlocks)
        hnd.2 (by intro i hi; rw [List.length_set]; exact hlt i (List.mem_cons_of_mem _ hi))
      rw [hmap] at ihr
      have hstep := clear_bucket_perm tree idx hidx
      rw [← Multiset.coe_eq_coe] at ihr hstep ⊢
      simp only [List.map_cons, List.flatten_cons, ← Multiset.coe_add] at ihr hstep ⊢
      rw [← hstep, ← ihr]
      abel

/-! ## Lemmas about the stash scan (`findUpdate`) -/

theorem findUpdate_not_found (op : String) (id : Int) (nd : Option (List Nat)) :
    ∀ stash : List Block, (∀ b ∈ stash, b.block_id ≠ id) →
    findUpdate op id nd stash = (stash, none, false) := by
  intro stash
  induction stash with
  | nil => intro _; rfl
  | cons b rest ih =>
      intro h
      have hb : b.block_id ≠ id := h b (List.mem_cons_self _ _)
      simp only [findUpdate, if_neg hb, ih (fun x hx => h x (List.mem_cons_of_mem _ hx))]

theorem findUpdate_found_read (id : Int) (nd : Option (List Nat)) :
    ∀ (s1 : List Block) (b : Block) (s2 : List Block),
    (∀ x ∈ s1, x.block_id ≠ id) → b.block_id = id →
    findUpdate "read" id nd (s1 ++ b :: s2) = (s1 ++ b :: s2, some b.data, true) := by
  intro s1
  induction s1 with
  | nil =>
      intro b s2 _ hb
      simp [findUpdate, hb]
  | cons x rest ih =>
      intro b s2 h hb
      have hx : x.block_id ≠ id := h x (List.mem_cons_self _ _)
      simp only [List.cons_append, findUpdate, if_neg hx]
      rw [show rest.append (b :: s2) = rest ++ b :: s2 from rfl,
        ih b s2 (fun y hy => h y (List.mem_cons_of_mem _ hy)) hb]

theorem findUpdate_found_write (id : Int) (d : List Nat) :
    ∀ (s1 : List Block) (b : Block) (s2 : List Block),
    (∀ x ∈ s1, x.block_id ≠ id) → b.block_id = id →
    findUpdate "write" id (some d) (s1 ++ b :: s2) =
      (s1 ++ { block_id := id, data := d, is_dummy := false } :: s2, none, true) := by
  intro s1
  induction s1 with
  | nil =>
      intro b s2 _ hb
      simp [findUpdate, hb]
  | cons x rest ih =>
      intro b s2 h hb
      have hx : x.block_id ≠ id := h x (List.mem_cons_self _ _)
      simp only [List.cons_append, findUpdate, if_neg hx]
      rw [show rest.append (b :: s2) = rest ++ b :: s2 from rfl,
        ih b s2 (fun y hy => h y (List.mem_cons_of_mem _ hy)) hb]

/-! ## Characterization of the greedy eviction step -/


/-- The eviction loop packs the eligible stash blocks, in stash insertion
order, up to the bucket's free capacity, and leaves exactly the other
blocks in the stash. -/
theorem evictLoop_eq (pm : Int → Option Nat) (height bucket_idx : Nat) :
    ∀ (stash : List Block) (bk : Bucket),
    evictLoop pm height bucket_idx bk stash =
      ({ blocks := bk.blocks ++
          (stash.filter (eligB pm height bucket_idx)).take (bk.capacity - bk.blocks.length),
         capacity := bk.capacity },
       remAfter (eligB pm height bucket_idx) (bk.capacity - bk.blocks.length) stash) := by
  intro stash
  induction stash with
  | nil => intro bk; simp [evictLoop, remAfter]
  | cons b rest ih =>
      intro bk
      by_cases he : eligB pm height bucket_idx b = true
      · have he' : (!b.is_dummy) = true ∧
            canPlaceOnPath pm height b.block_id bucket_idx = true := by
          simpa [eligB, Bool.and_eq_true] using he
        by_cases hfull : bk.blocks.length < bk.capacity
        · obtain ⟨m, hm⟩ : ∃ m, bk.capacity - bk.blocks.length = m + 1 :=
            ⟨bk.capacity - bk.blocks.length - 1, by omega⟩
          have hadd : bk.add b = ({ bk with blocks := bk.blocks ++ [b] }, true) := by
            simp [Bucket.add, if_pos hfull]
          have hm2 : bk.capacity - (bk.blocks.length + 1) = m := by omega
          simp only [evictLoop, if_pos he', hadd]
          rw [ih]
          simp [remAfter, he, hm, hm2, List.filter_cons_of_pos, List.take_succ_cons,
            List.append_assoc]
        · have hadd : bk.add b = (bk, false) := by
            simp [Bucket.add, if_neg hfull]
          have hz : bk.capacity - bk.blocks.length = 0 := by omega
          simp only [evictLoop, if_pos he', hadd]
          rw [if_neg (by simp)]
          rw [ih]
          simp [remAfter, he, hz]
      · have he' : ¬((!b.is_dummy) = true ∧
            canPlaceOnPath pm height b.block_id bucket_idx = true) := by
          simpa [eligB, Bool.and_eq_true] using he
        simp only [evictLoop, if_neg he']
        rw [ih]
        simp [remAfter, he, List.filter_cons_of_neg]

/-- The packed prefix together with the remaining stash is a permutation
of the original stash. -/
theorem take_filter_append_remAfter_perm (elig : Block → Bool) :
    ∀ (stash : List Block) (free : Nat),
    ((stash.filter elig).take free ++ remAfter elig free stash).Perm stash := by
  intro stash
  induction stash with
  | nil => intro free; simp [remAfter]
  | cons b rest ih =>
      intro free
      by_cases he : elig b = true
      · rcases Nat.eq_zero_or_pos free with hf | hf
        · subst hf
          simp only [List.take_zero, List.nil_append, remAfter, if_pos he, if_pos rfl]
          have h0 : (remAfter elig 0 rest).Perm rest := by simpa using ih 0
          exact h0.cons b
        · obtain ⟨f, rfl⟩ : ∃ f, free = f + 1 := ⟨free - 1, by omega⟩
          simp only [remAfter, if_pos he, if_neg (Nat.succ_ne_zero f),
            List.filter_cons_of_pos he, List.take_succ_cons, List.cons_append,
            Nat.add_sub_cancel]
          exact (ih f).cons b
      · simp only [remAfter, if_neg he, List.filter_cons_of_neg he]
        exact List.perm_middle.trans ((ih free).cons b)

/-- The remaining stash is a sublist of the original stash. -/
theorem remAfter_sublist (elig : Block → Bool) :
    ∀ (stash : List Block) (free : Nat), (remAfter elig free stash).Sublist stash := by
  intro stash
  induction stash with
  | nil => intro free; simp [remAfter]
  | cons b rest ih =>
      intro free
      by_cases he : elig b = true
      · rcases Nat.eq_zero_or_pos free with hf | hf
        · subst hf
          simp only [remAfter, if_pos he, if_pos rfl]
          exact (ih 0).cons₂ b
        · obtain ⟨f, rfl⟩ : ∃ f, free = f + 1 := ⟨free - 1, by omega⟩
          simp only [remAfter, if_pos he, if_neg (Nat.succ_ne_zero f)]
          exact (ih (f + 1 - 1)).cons b
      · simp only [remAfter, if_neg he]
        exact (ih free).cons₂ b

/-! ## Lemmas about bucket padding and the write-back loop -/

theorem padToCapacity_capacity (bk : Bucket) (rnd : Nat → List Nat) :
    (bk.padToCapacity rnd).capacity = bk.capacity := rfl

theorem filterReal_append (a b : List Block) :
    filterReal (a ++ b) = filterReal a ++ filterReal b :=
  List.filter_append _ _

theorem padToCapacity_filterReal (bk : Bucket) (rnd : Nat → List Nat) :
    filterReal (bk.padToCapacity rnd).blocks = filterReal bk.blocks := by
  simp only [Bucket.padToCapacity, filterReal, List.filter_append]
  have hnil : List.filter (fun b => !b.is_dummy)
      ((List.range (bk.capacity - bk.blocks.length)).map (fun i => Block.dummyR (rnd i))) = [] := by
    rw [List.filter_eq_nil_iff]
    intro a ha
    rcases List.mem_map.mp ha with ⟨i, _, rfl⟩
    simp [Block.dummyR]
  rw [hnil, List.append_nil]

theorem padToCapacity_length (bk : Bucket) (rnd : Nat → List Nat)
    (h : bk.blocks.length ≤ bk.capacity) :
    (bk.padToCapacity rnd).blocks.length = bk.capacity := by
  simp only [Bucket.padToCapacity, List.length_append, List.length_map, List.length_range]
  omega

theorem padToCapacity_mem (bk : Bucket) (rnd : Nat → List Nat) (b : Block)
    (hb : b ∈ (bk.padToCapacity rnd).blocks) : b ∈ bk.blocks ∨ b.is_dummy = true := by
  rcases List.mem_append.mp hb with h | h
  · exact Or.inl h
  · rcases List.mem_map.mp h with ⟨i, _, rfl⟩
    exact Or.inr rfl

theorem writeBackLoop_tree_length (pm : Int → Option Nat) (height : Nat)
    (dummyRnd : Nat → Nat → List Nat) :
    ∀ (idxs : List Nat) (k : Nat) (tree : List Bucket) (stash : List Block),
    (writeBackLoop pm height dummyRnd k idxs tree stash).1.length = tree.length := by
  intro idxs
  induction idxs with
  | nil => intro k tree stash; rfl
  | cons idx rest ih =>
      intro k tree stash
      simp only [writeBackLoop]
      rw [ih, List.length_set]

theorem writeBackLoop_tree_notMem (pm : Int → Option Nat) (height : Nat)
    (dummyRnd : Nat → Nat → List Nat) :
    ∀ (idxs : List Nat) (k : Nat) (tree : List Bucket) (stash : List Block) (j : Nat),
    j ∉ idxs → (writeBackLoop pm height dummyRnd k idxs tree stash).1[j]? = tree[j]? := by
  intro idxs
  induction idxs with
  | nil => intro k tree stash j _; rfl
  | cons idx rest ih =>
      intro k tree stash j hj
      have hne : idx ≠ j := fun h => hj (by rw [← h]; exact List.mem_cons_self _ _)
      simp only [writeBackLoop]
      rw [ih _ _ _ j (fun h => hj (List.mem_cons_of_mem _ h)), List.getElem?_set_ne hne]

theorem writeBackLoop_stash_sublist (pm : Int → Option Nat) (height : Nat)
    (dummyRnd : Nat → Nat → List Nat) :
    ∀ (idxs : List Nat) (k : Nat) (tree : List Bucket) (stash : List Block),
    (writeBackLoop pm height dummyRnd k idxs tree stash).2.Sublist stash := by
  intro idxs
  induction idxs with
  | nil => intro k tree stash; exact List.Sublist.refl _
  | cons idx rest ih =>
      intro k tree stash
      simp only [writeBackLoop]
      refine (ih _ _ _).trans ?_
      rw [evictLoop_eq]
      exact remAfter_sublist _ _ _

/-- Each bucket written back along distinct in-range indices is the
padded result of one eviction pass against some sub-stash of the
incoming stash. -/
theorem writeBackLoop_tree_mem (pm : Int → Option Nat) (height : Nat)
    (dummyRnd : Nat → Nat → List Nat) :
    ∀ (idxs : List Nat) (k : Nat) (tree : List Bucket) (stash : List Block) (j : Nat),
    idxs.Nodup → (∀ i ∈ idxs, i < tree.length) → j ∈ idxs →
    ∃ (s : List Block) (kj : Nat), s.Sublist stash ∧
      (writeBackLoop pm height dummyRnd k idxs tree stash).1[j]? =
        some ((evictLoop pm height j (tree.getD j { blocks := [], capacity := 0 }) s).1.padToCapacity
          (dummyRnd kj)) := by
  intro idxs
  induction idxs with
  | nil => intro k tree stash j _ _ hj; exact absurd hj (List.not_mem_nil _)
  | cons idx rest ih =>
      intro k tree stash j hnd hlt hj
      rw [List.nodup_cons] at hnd
      have hidx : idx < tree.length := hlt idx (List.mem_cons_self _ _)
      simp only [writeBackLoop]
      rcases List.mem_cons.mp hj with rfl | hj
      · refine ⟨stash, k, List.Sublist.refl _, ?_⟩
        rw [writeBackLoop_tree_notMem _ _ _ _ _ _ _ _ hnd.1,
          List.getElem?_set_self hidx]
      · have hne : idx ≠ j := fun h => hnd.1 (h ▸ hj)
        obtain ⟨s, kj, hsub, heq⟩ := ih (k + 1)
          (tree.set idx ((evictLoop pm height idx
            (tree.getD idx { blocks := [], capacity := 0 }) stash).1.padToCapacity
              (dummyRnd k)))
          (evictLoop pm height idx (tree.getD idx { blocks := [], capacity := 0 }) stash).2
          j hnd.2
          (by intro i hi; rw [List.length_set]; exact hlt i (List.mem_cons_of_mem _ hi)) hj
        refine ⟨s, kj, hsub.trans ?_, ?_⟩
        · rw [evictLoop_eq]
          exact remAfter_sublist _ _ _
        · rw [heq]
          congr 2
          simp [List.getD_eq_getElem?_getD, List.getElem?_set_ne hne]

/-- Conservation of real blocks through the write-back loop: the real
blocks of the final tree and stash are a permutation of those of the
incoming tree and stash (only dummies are added). -/
theorem writeBackLoop_perm (pm : Int → Option Nat) (height : Nat)
    (dummyRnd : Nat → Nat → List Nat) :
    ∀ (idxs : List Nat) (k : Nat) (tree : List Bucket) (stash : List Block),
    (∀ i ∈ idxs, i < tree.length) →
    (filterReal (treeBlocks (writeBackLoop pm height dummyRnd k idxs tree stash).1) ++
      filterReal (writeBackLoop pm height dummyRnd k idxs tree stash).2).Perm
      (filterReal (treeBlocks tree) ++ filterReal stash) := by
  intro idxs
  induction idxs with
  | nil => intro k tree stash _; exact List.Perm.refl _
  | cons idx rest ih =>
      intro k tree stash hlt
      have hidx : idx < tree.length := hlt idx (List.mem_cons_self _ _)
      have hgd : tree.getD idx { blocks := [], capacity := 0 } = tree[idx] := by
        rw [List.getD_eq_getElem?_getD, List.getElem?_eq_getElem hidx]; rfl
      simp only [writeBackLoop]
      have ihr := ih (k + 1)
        (tree.set idx ((evictLoop pm height idx
          (tree.getD idx { blocks := [], capacity := 0 }) stash).1.padToCapacity
            (dummyRnd k)))
        (evictLoop pm height idx (tree.getD idx { blocks := [], capacity := 0 }) stash).2
        (by intro i hi; rw [List.length_set]; exact hlt i (List.mem_cons_of_mem _ hi))
      refine ihr.trans ?_
      -- one-step conservation for the bucket at `idx`
      have he1 : (evictLoop pm height idx
          (tree.getD idx { blocks := [], capacity := 0 }) stash).1.blocks =
          tree[idx].blocks ++ (stash.filter (eligB pm height idx)).take
            (tree[idx].capacity - tree[idx].blocks.length) := by
        rw [evictLoop_eq, hgd]
      have he2 : (evictLoop pm height idx
          (tree.getD idx { blocks := [], capacity := 0 }) stash).2 =
          remAfter (eligB pm height idx)
            (tree[idx].capacity - tree[idx].blocks.length) stash := by
        rw [evictLoop_eq, hgd]
      have htaken_real : filterReal ((stash.filter (eligB pm height idx)).take
          (tree[idx].capacity - tree[idx].blocks.length)) =
          (stash.filter (eligB pm height idx)).take
            (tree[idx].capacity - tree[idx].blocks.length) := by
        rw [filterReal, List.filter_eq_self]
        intro a ha
        have hmem := List.take_subset _ (stash.filter (eligB pm height idx)) ha
        have := (List.mem_filter.mp hmem).2
        simp only [eligB, Bool.and_eq_true] at this
        exact this.1
      have hperm' : (filterReal ((stash.filter (eligB pm height idx)).take
            (tree[idx].capacity - tree[idx].blocks.length)) ++
          filterReal (remAfter (eligB pm height idx)
            (tree[idx].capacity - tree[idx].blocks.length) stash)).Perm
          (filterReal stash) := by
        have := (take_filter_append_remAfter_perm (eligB pm height idx) stash
          (tree[idx].capacity - tree[idx].blocks.length)).filter (fun b => !b.is_dummy)
        rw [List.filter_append] at this
        exact this
      rw [he2, treeBlocks_set _ _ _ hidx, treeBlocks_decomp tree idx hidx]
      rw [filterReal_append, filterReal_append, filterReal_append, filterReal_append,
        padToCapacity_filterReal, he1, filterReal_append, htaken_real]
      rw [← Multiset.coe_eq_coe] at hperm' ⊢
      simp only [← Multiset.coe_add] at hperm' ⊢
      rw [htaken_real] at hperm'
      rw [← hperm']
      abel

/-! ## Uniqueness helpers for block IDs -/

theorem unique_of_ids_nodup : ∀ (l : List Block), (l.map Block.block_id).Nodup →
    ∀ b1 ∈ l, ∀ b2 ∈ l, b1.block_id = b2.block_id → b1 = b2 := by
  intro l
  induction l with
  | nil => intro _ b1 h1; exact absurd h1 (List.not_mem_nil _)
  | cons x rest ih =>
      intro hnd b1 h1 b2 h2 hid
      rw [List.map_cons, List.nodup_cons] at hnd
      rcases List.mem_cons.mp h1 with h1e | h1m
      · rcases List.mem_cons.mp h2 with h2e | h2m
        · rw [h1e, h2e]
        · subst h1e
          exact absurd (by rw [hid]; exact List.mem_map_of_mem Block.block_id h2m) hnd.1
      · rcases List.mem_cons.mp h2 with h2e | h2m
        · subst h2e
          exact absurd (by rw [← hid]; exact List.mem_map_of_mem Block.block_id h1m) hnd.1
        · exact ih hnd.2 b1 h1m b2 h2m hid

theorem split_first_match : ∀ (l : List Block) (id : Int) (b0 : Block),
    b0 ∈ l → b0.block_id = id → (l.map Block.block_id).Nodup →
    ∃ s1 s2, l = s1 ++ b0 :: s2 ∧ (∀ x ∈ s1, x.block_id ≠ id) ∧
      (∀ x ∈ s2, x.block_id ≠ id) := by
  intro l
  induction l with
  | nil => intro id b0 hmem; exact absurd hmem (List.not_mem_nil _)
  | cons x rest ih =>
      intro id b0 hmem hid hnd
      have hmapnd := hnd
      rw [List.map_cons, List.nodup_cons] at hmapnd
      by_cases hx : x.block_id = id
      · have hxb : x = b0 :=
          unique_of_ids_nodup _ hnd x (List.mem_cons_self _ _) b0 hmem (by rw [hx, hid])
        subst hxb
        refine ⟨[], rest, rfl, by simp, ?_⟩
        intro y hy hyid
        exact hmapnd.1 (by
          rw [← hx, ← hyid] at *
          exact hyid ▸ List.mem_map_of_mem Block.block_id hy)
      · have hb0 : b0 ∈ rest := by
          rcases List.mem_cons.mp hmem with rfl | h
          · exact absurd hid hx
          · exact h
        obtain ⟨s1, s2, heq, hs1, hs2⟩ := ih id b0 hb0 hid hmapnd.2
        exact ⟨x :: s1, s2, by rw [heq]; rfl,
          by intro y hy; rcases List.mem_cons.mp hy with rfl | hy; exact hx; exact hs1 y hy,
          hs2⟩

theorem find?_append_first (id : Int) (b0 : Block) (hid : b0.block_id = id) :
    ∀ (s1 s2 : List Block), (∀ x ∈ s1, x.block_id ≠ id) →
    (s1 ++ b0 :: s2).find? (fun b => b.block_id == id) = some b0 := by
  intro s1
  induction s1 with
  | nil => intro s2 _; simp [List.find?, hid]
  | cons y ys ihy =>
      intro s2 hs1
      have hy : (y.block_id == id) = false := by
        simpa using hs1 y (List.mem_cons_self _ _)
      simp only [List.cons_append, List.find?, hy]
      exact ihy s2 (fun x hx => hs1 x (List.mem_cons_of_mem _ hx))

theorem find?_eq_of_unique (l : List Block) (id : Int) (b0 : Block)
    (hmem : b0 ∈ l) (hid : b0.block_id = id) (hnd : (l.map Block.block_id).Nodup) :
    l.find? (fun b => b.block_id == id) = some b0 := by
  obtain ⟨s1, s2, rfl, hs1, _⟩ := split_first_match l id b0 hmem hid hnd
  exact find?_append_first id b0 hid s1 s2 hs1

theorem find?_eq_none_of_no_match (l : List Block) (id : Int)
    (h : ∀ b ∈ l, b.block_id ≠ id) :
    l.find? (fun b => b.block_id == id) = none := by
  rw [List.find?_eq_none]
  intro x hx
  simpa using h x hx

/-! ## The access operation: structural facts -/

theorem access_height (st : OramState) (op : String) (id : Int)
    (nd : Option (List Nat)) (r : AccessRand) :
    (access st op id nd r).1.height = st.height := rfl

theorem access_block_size (st : OramState) (op : String) (id : Int)
    (nd : Option (List Nat)) (r : AccessRand) :
    (access st op id nd r).1.block_size = st.block_size := rfl

theorem access_bucket_capacity (st : OramState) (op : String) (id : Int)
    (nd : Option (List Nat)) (r : AccessRand) :
    (access st op id nd r).1.bucket_capacity = st.bucket_capacity := rfl

theorem access_num_blocks (st : OramState) (op : String) (id : Int)
    (nd : Option (List Nat)) (r : AccessRand) :
    (access st op id nd r).1.num_blocks = st.num_blocks := rfl

theorem access_access_count (st : OramState) (op : String) (id : Int)
    (nd : Option (List Nat)) (r : AccessRand) :
    (access st op id nd r).1.access_count = st.access_count + 1 := rfl

theorem access_position_map (st : OramState) (op : String) (id : Int)
    (nd : Option (List Nat)) (r : AccessRand) :
    (access st op id nd r).1.position_map = pmStep2 st id r := rfl

theorem access_tree (st : OramState) (op : String) (id : Int)
    (nd : Option (List Nat)) (r : AccessRand) :
    (access st op id nd r).1.tree =
      (writeBackLoop (pmStep2 st id r) st.height r.dummy 0
        (getPathIndices st.height (oldLeafOf st id r)).reverse
        (readPath st.tree st.stash (getPathIndices st.height (oldLeafOf st id r))).1
        (accessStash3 st op id nd r)).1 := rfl

theorem access_stash (st : OramState) (op : String) (id : Int)
    (nd : Option (List Nat)) (r : AccessRand) :
    (access st op id nd r).1.stash =
      (writeBackLoop (pmStep2 st id r) st.height r.dummy 0
        (getPathIndices st.height (oldLeafOf st id r)).reverse
        (readPath st.tree st.stash (getPathIndices st.height (oldLeafOf st id r))).1
        (accessStash3 st op id nd r)).2 := rfl

theorem access_stash_peak (st : OramState) (op : String) (id : Int)
    (nd : Option (List Nat)) (r : AccessRand) :
    (access st op id nd r).1.stash_peak =
      max st.stash_peak (access st op id nd r).1.stash.length := rfl

theorem access_result (st : OramState) (op : String) (id : Int)
    (nd : Option (List Nat)) (r : AccessRand) :
    (access st op id nd r).2 =
      (findUpdate op id nd
        (readPath st.tree st.stash (getPathIndices st.height (oldLeafOf st id r))).2).2.1 := rfl

theorem accessStash3_none (st : OramState) (op : String) (id : Int) (r : AccessRand) :
    accessStash3 st op id none r =
      (findUpdate op id none
        (readPath st.tree st.stash (getPathIndices st.height (oldLeafOf st id r))).2).1 := rfl

theorem accessStash3_some (st : OramState) (op : String) (id : Int) (d : List Nat)
    (r : AccessRand) :
    accessStash3 st op id (some d) r =
      (if ¬(findUpdate op id (some d)
            (readPath st.tree st.stash (getPathIndices st.height (oldLeafOf st id r))).2).2.2 ∧
          op = "write" then
        (findUpdate op id (some d)
          (readPath st.tree st.stash (getPathIndices st.height (oldLeafOf st id r))).2).1 ++
          [{ block_id := id, data := d }]
      else
        (findUpdate op id (some d)
          (readPath st.tree st.stash (getPathIndices st.height (oldLeafOf st id r))).2).1) := rfl

theorem pmStep2_eq (st : OramState) (id : Int) (r : AccessRand) (x : Int) :
    pmStep2 st id r x = if x = id then some r.newLeaf else st.position_map x := by
  unfold pmStep2
  by_cases h : x = id <;> simp [h]

theorem oldLeafOf_lt (st : OramState) (id : Int) (r : AccessRand)
    (hwf : WF st) (hr : validRand st r) : oldLeafOf st id r < st.numLeaves := by
  unfold oldLeafOf
  cases h : st.position_map id with
  | none => exact hr.1
  | some l => exact hwf.pm_lt id l h

theorem pmStep2_lt (st : OramState) (id : Int) (r : AccessRand)
    (hwf : WF st) (hr : validRand st r) :
    ∀ x l, pmStep2 st id r x = some l → l < st.numLeaves := by
  intro x l hx
  rw [pmStep2_eq] at hx
  by_cases h : x = id
  · rw [if_pos h] at hx
    cases hx
    exact hr.2
  · rw [if_neg h] at hx
    exact hwf.pm_lt x l hx

theorem getD_eq_of_getElem? {α : Type} {l : List α} {i : Nat} {a d : α}
    (h : l[i]? = some a) : l.getD i d = a := by
  rw [List.getD_eq_getElem?_getD, h]; rfl

theorem getElem_eq_of_getElem? {α : Type} {l : List α} {i : Nat} {a : α}
    (hlt : i < l.length) (h : l[i]? = some a) : l[i] = a := by
  rw [List.getElem?_eq_getElem hlt] at h
  exact Option.some.inj h

theorem mem_treeBlocks_iff (tree : List Bucket) (b : Block) :
    b ∈ treeBlocks tree ↔ ∃ i, ∃ _ : i < tree.length, b ∈ tree[i].blocks := by
  constructor
  · intro hb
    rw [treeBlocks, List.mem_flatten] at hb
    obtain ⟨bl, hbl, hbbl⟩ := hb
    rw [List.mem_map] at hbl
    obtain ⟨bk, hbk, rfl⟩ := hbl
    obtain ⟨i, hilt, rfl⟩ := List.mem_iff_getElem.mp hbk
    exact ⟨i, hilt, hbbl⟩
  · intro ⟨i, hilt, hb⟩
    rw [treeBlocks, List.mem_flatten]
    exact ⟨tree[i].blocks, List.mem_map_of_mem _ (List.getElem_mem hilt), hb⟩

/-- After the path read, no block with the accessed ID remains anywhere
in the tree: path buckets are cleared, and a real off-path block with
that ID would contradict the placement invariant. -/
theorem readPath_no_target (st : OramState) (id : Int) (r : AccessRand)
    (hwf : WF st) (hr : validRand st r) :
    ∀ b ∈ filterReal (treeBlocks
      (readPath st.tree st.stash (getPathIndices st.height (oldLeafOf st id r))).1),
      b.block_id ≠ id := by
  have hl2 : oldLeafOf st id r < 2 ^ st.height := oldLeafOf_lt st id r hwf hr
  have hnd : (getPathIndices st.height (oldLeafOf st id r)).Nodup := getPathIndices_nodup _ _
  intro b hb hbid
  rw [filterReal, List.mem_filter] at hb
  have hbreal : b.is_dummy = false := by simpa using hb.2
  rw [mem_treeBlocks_iff] at hb
  obtain ⟨⟨i, hilt, hbi⟩, _⟩ := hb
  have hilt' : i < st.tree.length := by
    rw [← readPath_tree_length (getPathIndices st.height (oldLeafOf st id r)) st.tree st.stash]
    exact hilt
  by_cases hiP : i ∈ getPathIndices st.height (oldLeafOf st id r)
  · -- path buckets are cleared
    have := readPath_tree_mem (getPathIndices st.height (oldLeafOf st id r))
      st.tree st.stash i hiP hnd
    rw [List.getElem?_eq_getElem hilt, this, List.getElem?_eq_getElem hilt'] at *
    have hbempty : b ∈ ({ st.tree[i] with blocks := ([] : List Block) } : Bucket).blocks := by
      have hsome := readPath_tree_mem (getPathIndices st.height (oldLeafOf st id r))
        st.tree st.stash i hiP hnd
      rw [List.getElem?_eq_getElem hilt, List.getElem?_eq_getElem hilt'] at hsome
      have := Option.some.inj hsome
      rw [this] at hbi
      exact hbi
    simp at hbempty
  · -- off-path buckets are unchanged, and the invariant pins their blocks
    have hsome := readPath_tree_notMem (getPathIndices st.height (oldLeafOf st id r))
      st.tree st.stash i hiP
    rw [List.getElem?_eq_getElem hilt, List.getElem?_eq_getElem hilt'] at hsome
    have hbt : b ∈ st.tree[i].blocks := by
      rw [← Option.some.inj hsome]; exact hbi
    obtain ⟨l, hpm, _, hmem⟩ := hwf.tree_placed i hilt' b hbt hbreal
    rw [hbid] at hpm
    have : oldLeafOf st id r = l := by
      unfold oldLeafOf
      rw [hpm]
    rw [this] at hiP
    exact hiP hmem

/-- Generic re-establishment of the engine invariant after the
write-back step, given the shape of the cleared tree and a well-behaved
pre-write-back stash. -/
theorem wf_assemble (st : OramState) (pm2 : Int → Option Nat) (P : List Nat)
    (T1 : List Bucket) (S3 : List Block) (dummyRnd : Nat → Nat → List Nat)
    (st' : OramState)
    (htree : st'.tree = (writeBackLoop pm2 st.height dummyRnd 0 P.reverse T1 S3).1)
    (hstash : st'.stash = (writeBackLoop pm2 st.height dummyRnd 0 P.reverse T1 S3).2)
    (hpm : st'.position_map = pm2)
    (hheight : st'.height = st.height)
    (hcap : st'.bucket_capacity = st.bucket_capacity)
    (hndP : P.Nodup)
    (hrange : ∀ i ∈ P, i < st.tree.length)
    (hT1len : T1.length = st.tree.length)
    (hT1mem : ∀ j ∈ P, T1[j]? = st.tree[j]?.map (fun bk => { bk with blocks := [] }))
    (hT1notMem : ∀ j, j < st.tree.length → j ∉ P → T1[j]? = st.tree[j]?)
    (hwf : WF st)
    (hpm2lt : ∀ x l, pm2 x = some l → l < st.numLeaves)
    (hpm2_offpath : ∀ b ∈ filterReal (treeBlocks T1),
      pm2 b.block_id = st.position_map b.block_id)
    (hreal3 : ∀ b ∈ S3, b.is_dummy = false)
    (hmapped3 : ∀ b ∈ S3, (pm2 b.block_id).isSome)
    (hnd3 : ((S3 ++ filterReal (treeBlocks T1)).map Block.block_id).Nodup) :
    WF st' ∧ (liveBlocks st').Perm (S3 ++ filterReal (treeBlocks T1)) := by
  have hnl : st'.numLeaves = st.numLeaves := by
    rw [OramState.numLeaves, OramState.numLeaves, hheight]
  have hnb : st'.numBuckets = st.numBuckets := by
    rw [OramState.numBuckets, OramState.numBuckets, hheight]
  have hndR : P.reverse.Nodup := List.nodup_reverse.mpr hndP
  have hrangeR : ∀ i ∈ P.reverse, i < T1.length := by
    intro i hi
    rw [hT1len]
    exact hrange i (List.mem_reverse.mp hi)
  have hlen' : st'.tree.length = st.tree.length := by
    rw [htree, writeBackLoop_tree_length, hT1len]
  have hsub : st'.stash.Sublist S3 := by
    rw [hstash]
    exact writeBackLoop_stash_sublist _ _ _ _ _ _ _
  have hwbperm := writeBackLoop_perm pm2 st.height dummyRnd P.reverse 0 T1 S3 hrangeR
  have hS3real : filterReal S3 = S3 := by
    rw [filterReal, List.filter_eq_self]
    intro a ha
    simp [hreal3 a ha]
  have hstashreal : ∀ b ∈ st'.stash, b.is_dummy = false :=
    fun b hb => hreal3 b (hsub.subset hb)
  have hstash'real : filterReal st'.stash = st'.stash := by
    rw [filterReal, List.filter_eq_self]
    intro a ha
    simp [hstashreal a ha]
  -- the per-bucket description of the written-back path buckets
  have hbucket : ∀ j ∈ P, ∃ bk : Bucket,
      st'.tree[j]? = some bk ∧
      bk.capacity = (st.tree.getD j { blocks := [], capacity := 0 }).capacity ∧
      bk.blocks.length = (st.tree.getD j { blocks := [], capacity := 0 }).capacity ∧
      (∀ b ∈ bk.blocks, b.is_dummy = false →
        canPlaceOnPath pm2 st.height b.block_id j = true) := by
    intro j hj
    have hjlt : j < st.tree.length := hrange j hj
    obtain ⟨s, kj, hssub, heq⟩ := writeBackLoop_tree_mem pm2 st.height dummyRnd
      P.reverse 0 T1 S3 j hndR hrangeR (List.mem_reverse.mpr hj)
    have hT1j : T1[j]? = some { st.tree[j] with blocks := ([] : List Block) } := by
      rw [hT1mem j hj, List.getElem?_eq_getElem hjlt]
      rfl
    have hgd : T1.getD j { blocks := [], capacity := 0 } =
        { st.tree[j] with blocks := ([] : List Block) } := getD_eq_of_getElem? hT1j
    rw [hgd, evictLoop_eq] at heq
    have hbang : st.tree.getD j { blocks := [], capacity := 0 } = st.tree[j] :=
      getD_eq_of_getElem? (List.getElem?_eq_getElem hjlt)
    refine ⟨_, by rw [htree]; exact heq, ?_, ?_, ?_⟩
    · rw [padToCapacity_capacity, hbang]
    · rw [padToCapacity_length, hbang]
      simp only [List.nil_append, List.length_take, List.length_nil, Nat.sub_zero]
      exact le_trans (Nat.min_le_left _ _) (le_refl _)
    · intro b hb hbreal
      rcases padToCapacity_mem _ _ b hb with hmem | hdum
      · simp only [List.nil_append] at hmem
        have := List.take_subset _ _ hmem
        have helig := (List.mem_filter.mp this).2
        simp only [eligB, Bool.and_eq_true] at helig
        exact helig.2
      · rw [hbreal] at hdum
        exact absurd hdum (by simp)
  -- off-path buckets are untouched
  have hoff : ∀ j, j < st.tree.length → j ∉ P → st'.tree[j]? = st.tree[j]? := by
    intro j hjlt hj
    rw [htree, writeBackLoop_tree_notMem pm2 st.height dummyRnd P.reverse 0 T1 S3 j
      (fun h => hj (List.mem_reverse.mp h)), hT1notMem j hjlt hj]
  -- the liveBlocks permutation
  have hlive : (liveBlocks st').Perm (S3 ++ filterReal (treeBlocks T1)) := by
    have h2 : filterReal (writeBackLoop pm2 st.height dummyRnd 0 P.reverse T1 S3).2 =
        (writeBackLoop pm2 st.height dummyRnd 0 P.reverse T1 S3).2 := by
      rw [← hstash]; exact hstash'real
    rw [hS3real] at hwbperm
    rw [liveBlocks, filterReal_append, hstash'real, hstash, htree, ← h2]
    exact (List.perm_append_comm.trans hwbperm).trans List.perm_append_comm
  refine ⟨?_, hlive⟩
  have hids : realIds (st'.stash ++ treeBlocks st'.tree) =
      (liveBlocks st').map Block.block_id := rfl
  constructor
  · rw [hheight]; exact hwf.height_pos
  · rw [hlen', hnb]; exact hwf.tree_len
  · -- cap_eq
    intro i hi
    have hilt : i < st.tree.length := by rw [← hlen']; exact hi
    by_cases hiP : i ∈ P
    · obtain ⟨bk, heq, hcap', _, _⟩ := hbucket i hiP
      rw [getElem_eq_of_getElem? hi heq, hcap',
        getD_eq_of_getElem? (List.getElem?_eq_getElem hilt), hcap]
      exact hwf.cap_eq i hilt
    · have := hoff i hilt hiP
      rw [getElem_eq_of_getElem? hi (by rw [this]; exact List.getElem?_eq_getElem hilt), hcap]
      exact hwf.cap_eq i hilt
  · -- bucket_size
    intro i hi
    have hilt : i < st.tree.length := by rw [← hlen']; exact hi
    by_cases hiP : i ∈ P
    · obtain ⟨bk, heq, _, hblen, _⟩ := hbucket i hiP
      rw [getElem_eq_of_getElem? hi heq, hblen,
        getD_eq_of_getElem? (List.getElem?_eq_getElem hilt), hcap]
      exact le_of_eq (hwf.cap_eq i hilt)
    · have := hoff i hilt hiP
      rw [getElem_eq_of_getElem? hi (by rw [this]; exact List.getElem?_eq_getElem hilt), hcap]
      exact hwf.bucket_size i hilt
  · -- pm_lt
    intro x l hx
    rw [hpm] at hx
    rw [hnl]
    exact hpm2lt x l hx
  · -- stash_real
    exact hstashreal
  · -- stash_mapped
    intro b hb
    rw [hpm]
    exact hmapped3 b (hsub.subset hb)
  · -- tree_placed
    intro i hi b hb hbreal
    have hilt : i < st.tree.length := by rw [← hlen']; exact hi
    by_cases hiP : i ∈ P
    · obtain ⟨bk, heq, _, _, hplace⟩ := hbucket i hiP
      rw [getElem_eq_of_getElem? hi heq] at hb
      have hcp := hplace b hb hbreal
      rw [canPlaceOnPath] at hcp
      cases hpmx : pm2 b.block_id with
      | none => rw [hpmx] at hcp; simp at hcp
      | some l =>
          rw [hpmx] at hcp
          refine ⟨l, by rw [hpm]; exact hpmx, by rw [hnl]; exact hpm2lt _ _ hpmx, ?_⟩
          rw [hheight]
          simpa using hcp
    · have hsame := hoff i hilt hiP
      rw [getElem_eq_of_getElem? hi (by rw [hsame]; exact List.getElem?_eq_getElem hilt)] at hb
      obtain ⟨l, hpm', hlt', hmem'⟩ := hwf.tree_placed i hilt b hb hbreal
      have hbT1 : b ∈ filterReal (treeBlocks T1) := by
        rw [filterReal, List.mem_filter]
        refine ⟨?_, by simp [hbreal]⟩
        rw [mem_treeBlocks_iff]
        refine ⟨i, by rw [hT1len]; exact hilt, ?_⟩
        have : T1[i]? = st.tree[i]? := hT1notMem i hilt hiP
        rw [getElem_eq_of_getElem? (by rw [hT1len]; exact hilt)
          (by rw [this]; exact List.getElem?_eq_getElem hilt)]
        exact hb
      refine ⟨l, ?_, by rw [hnl]; exact hlt', by rw [hheight]; exact hmem'⟩
      rw [hpm, hpm2_offpath b hbT1]
      exact hpm'
  · -- ids_nodup
    rw [hids]
    exact ((hlive.map Block.block_id).nodup_iff).mpr hnd3

/-- Shared analysis of one access: validity of the path, shape of the
post-read stash, and conservation/uniqueness of the live blocks. -/
theorem access_core (st : OramState) (id : Int) (r : AccessRand)
    (hwf : WF st) (hr : validRand st r) :
    oldLeafOf st id r < st.numLeaves ∧
    (getPathIndices st.height (oldLeafOf st id r)).Nodup ∧
    (getPathIndices st.height (oldLeafOf st id r)).length = st.height + 1 ∧
    (∀ i ∈ getPathIndices st.height (oldLeafOf st id r), i < st.tree.length) ∧
    (readPath st.tree st.stash (getPathIndices st.height (oldLeafOf st id r))).1.length =
      st.tree.length ∧
    (∀ b ∈ (readPath st.tree st.stash (getPathIndices st.height (oldLeafOf st id r))).2,
      b.is_dummy = false) ∧
    (∀ b ∈ (readPath st.tree st.stash (getPathIndices st.height (oldLeafOf st id r))).2,
      (st.position_map b.block_id).isSome) ∧
    (((readPath st.tree st.stash (getPathIndices st.height (oldLeafOf st id r))).2 ++
      filterReal (treeBlocks
        (readPath st.tree st.stash (getPathIndices st.height (oldLeafOf st id r))).1)).Perm
      (liveBlocks st)) ∧
    ((((readPath st.tree st.stash (getPathIndices st.height (oldLeafOf st id r))).2 ++
      filterReal (treeBlocks
        (readPath st.tree st.stash (getPathIndices st.height (oldLeafOf st id r))).1)).map
        Block.block_id).Nodup ∧
    (∀ b ∈ filterReal (treeBlocks
        (readPath st.tree st.stash (getPathIndices st.height (oldLeafOf st id r))).1),
      (st.position_map b.block_id).isSome)) := by
  have hl : oldLeafOf st id r < st.numLeaves := oldLeafOf_lt st id r hwf hr
  have hl2 : oldLeafOf st id r < 2 ^ st.height := hl
  have hnd : (getPathIndices st.height (oldLeafOf st id r)).Nodup :=
    getPathIndices_nodup _ _
  have hplen : (getPathIndices st.height (oldLeafOf st id r)).length = st.height + 1 :=
    getPathIndices_length _ _ hl2
  have hrange : ∀ i ∈ getPathIndices st.height (oldLeafOf st id r), i < st.tree.length := by
    intro i hi
    rw [hwf.tree_len]
    exact getPathIndices_lt _ _ hl2 i hi
  have hrplen := readPath_tree_length (getPathIndices st.height (oldLeafOf st id r))
    st.tree st.stash
  have hstash1 := readPath_stash (getPathIndices st.height (oldLeafOf st id r))
    st.tree st.stash hnd
  -- membership in the collected path blocks
  have hcollect : ∀ b ∈ ((getPathIndices st.height (oldLeafOf st id r)).map (fun i =>
      (st.tree.getD i { blocks := [], capacity := 0 }).getRealBlocks)).flatten,
      b.is_dummy = false ∧ (st.position_map b.block_id).isSome := by
    intro b hb
    rw [List.mem_flatten] at hb
    obtain ⟨l, hl', hbl⟩ := hb
    rw [List.mem_map] at hl'
    obtain ⟨i, hi, rfl⟩ := hl'
    have hilt : i < st.tree.length := hrange i hi
    have hgd : st.tree.getD i { blocks := [], capacity := 0 } = st.tree[i] := by
      rw [List.getD_eq_getElem?_getD, List.getElem?_eq_getElem hilt]; rfl
    rw [hgd, Bucket.getRealBlocks, List.mem_filter] at hbl
    have hdummy : b.is_dummy = false := by simpa using hbl.2
    obtain ⟨l', hpm, _, _⟩ := hwf.tree_placed i hilt b hbl.1 hdummy
    exact ⟨hdummy, by rw [hpm]; rfl⟩
  have hreal : ∀ b ∈ (readPath st.tree st.stash
      (getPathIndices st.height (oldLeafOf st id r))).2, b.is_dummy = false := by
    intro b hb
    rw [hstash1] at hb
    rcases List.mem_append.mp hb with h | h
    · exact hwf.stash_real b h
    · exact (hcollect b h).1
  have hmapped : ∀ b ∈ (readPath st.tree st.stash
      (getPathIndices st.height (oldLeafOf st id r))).2,
      (st.position_map b.block_id).isSome := by
    intro b hb
    rw [hstash1] at hb
    rcases List.mem_append.mp hb with h | h
    · exact hwf.stash_mapped b h
    · exact (hcollect b h).2
  -- conservation through the path read
  have hrp := readPath_perm (getPathIndices st.height (oldLeafOf st id r))
    st.tree st.stash hnd hrange
  have hstashreal : filterReal st.stash = st.stash := by
    rw [filterReal, List.filter_eq_self]
    intro a ha
    simp [hwf.stash_real a ha]
  have hperm : (((readPath st.tree st.stash
        (getPathIndices st.height (oldLeafOf st id r))).2 ++
      filterReal (treeBlocks
        (readPath st.tree st.stash (getPathIndices st.height (oldLeafOf st id r))).1)).Perm
      (liveBlocks st)) := by
    rw [hstash1, liveBlocks, filterReal_append, hstashreal]
    rw [← Multiset.coe_eq_coe] at hrp ⊢
    simp only [← Multiset.coe_add] at hrp ⊢
    rw [← hrp]
    abel
  have htree1mapped : ∀ b ∈ filterReal (treeBlocks
      (readPath st.tree st.stash (getPathIndices st.height (oldLeafOf st id r))).1),
      (st.position_map b.block_id).isSome := by
    intro b hb
    have hmem := hperm.subset (List.mem_append_right _ hb)
    rw [liveBlocks, filterReal, List.mem_filter] at hmem
    rcases List.mem_append.mp hmem.1 with h | h
    · exact hwf.stash_mapped b h
    · rw [treeBlocks, List.mem_flatten] at h
      obtain ⟨bl, hbl, hbbl⟩ := h
      rw [List.mem_map] at hbl
      obtain ⟨bk, hbk, rfl⟩ := hbl
      obtain ⟨i, hilt, rfl⟩ := List.mem_iff_getElem.mp hbk
      obtain ⟨l', hpm, _, _⟩ := hwf.tree_placed i hilt b hbbl (by simpa using hmem.2)
      rw [hpm]; rfl
  refine ⟨hl, hnd, hplen, hrange, hrplen, hreal, hmapped, hperm, ?_, htree1mapped⟩
  have hids : realIds (st.stash ++ treeBlocks st.tree) = (liveBlocks st).map Block.block_id := rfl
  have hlive_nd : ((liveBlocks st).map Block.block_id).Nodup := by
    rw [← hids]; exact hwf.ids_nodup
  exact ((hperm.map Block.block_id).nodup_iff).mpr hlive_nd

theorem pmStep2_isSome (st : OramState) (id : Int) (r : AccessRand) (x : Int)
    (h : (st.position_map x).isSome = true) : (pmStep2 st id r x).isSome = true := by
  rw [pmStep2_eq]
  by_cases hx : x = id
  · rw [if_pos hx]; rfl
  · rw [if_neg hx]; exact h

theorem pmStep2_isSome_self (st : OramState) (id : Int) (r : AccessRand) :
    (pmStep2 st id r id).isSome = true := by
  rw [pmStep2_eq, if_pos rfl]; rfl

/-- One write access: the invariant is preserved, the result is `None`,
and the live blocks become the written block plus all other previously
live blocks. -/
theorem access_write_spec (st : OramState) (id : Int) (d : List Nat) (r : AccessRand)
    (hwf : WF st) (hr : validRand st r) :
    WF (access st "write" id (some d) r).1 ∧
    (access st "write" id (some d) r).2 = none ∧
    (liveBlocks (access st "write" id (some d) r).1).Perm
      ({ block_id := id, data := d, is_dummy := false } ::
        (liveBlocks st).filter (fun b => b.block_id != id)) := by
  obtain ⟨hl, hndP, hplen, hrange, hrplen, hreal1, hmapped1, hperm1, hnd1, htm1⟩ :=
    access_core st id r hwf hr
  have hnoid := readPath_no_target st id r hwf hr
  have hstash1nd : (((readPath st.tree st.stash
      (getPathIndices st.height (oldLeafOf st id r))).2).map Block.block_id).Nodup := by
    rw [List.map_append] at hnd1
    exact hnd1.of_append_left
  have hfilter_live : ∀ (L : List Block), (∀ x ∈ L, x.block_id ≠ id) →
      L.filter (fun b => b.block_id != id) = L := by
    intro L hL
    rw [List.filter_eq_self]
    intro a ha
    simpa using hL a ha
  by_cases hex : ∃ b0 ∈ (readPath st.tree st.stash
      (getPathIndices st.height (oldLeafOf st id r))).2, b0.block_id = id
  · obtain ⟨b0, hb0mem, hb0id⟩ := hex
    obtain ⟨s1, s2, hsplit, hs1, hs2⟩ := split_first_match _ id b0 hb0mem hb0id hstash1nd
    have hfu : findUpdate "write" id (some d) (readPath st.tree st.stash
        (getPathIndices st.height (oldLeafOf st id r))).2 =
        (s1 ++ { block_id := id, data := d, is_dummy := false } :: s2, none, true) := by
      rw [hsplit]
      exact findUpdate_found_write id d s1 b0 s2 hs1 hb0id
    have hS3 : accessStash3 st "write" id (some d) r =
        s1 ++ { block_id := id, data := d, is_dummy := false } :: s2 := by
      rw [accessStash3_some, hfu]
      simp
    have hs1sub : ∀ x ∈ s1, x ∈ (readPath st.tree st.stash
        (getPathIndices st.height (oldLeafOf st id r))).2 := by
      intro x hx; rw [hsplit]; exact List.mem_append_left _ hx
    have hs2sub : ∀ x ∈ s2, x ∈ (readPath st.tree st.stash
        (getPathIndices st.height (oldLeafOf st id r))).2 := by
      intro x hx
      rw [hsplit]
      exact List.mem_append_right _ (List.mem_cons_of_mem _ hx)
    have hmem3 : ∀ x ∈ accessStash3 st "write" id (some d) r,
        x = { block_id := id, data := d, is_dummy := false } ∨
        x ∈ (readPath st.tree st.stash
          (getPathIndices st.height (oldLeafOf st id r))).2 := by
      intro x hx
      rw [hS3] at hx
      rcases List.mem_append.mp hx with h | h
      · exact Or.inr (hs1sub x h)
      · rcases List.mem_cons.mp h with h | h
        · exact Or.inl h
        · exact Or.inr (hs2sub x h)
    have hreal3 : ∀ b ∈ accessStash3 st "write" id (some d) r, b.is_dummy = false := by
      intro b hb
      rcases hmem3 b hb with rfl | h
      · rfl
      · exact hreal1 b h
    have hmapped3 : ∀ b ∈ accessStash3 st "write" id (some d) r,
        (pmStep2 st id r b.block_id).isSome = true := by
      intro b hb
      rcases hmem3 b hb with rfl | h
      · exact pmStep2_isSome_self st id r
      · exact pmStep2_isSome st id r _ (hmapped1 b h)
    have hids3 : (accessStash3 st "write" id (some d) r).map Block.block_id =
        ((readPath st.tree st.stash
          (getPathIndices st.height (oldLeafOf st id r))).2).map Block.block_id := by
      rw [hS3, hsplit, List.map_append, List.map_append, List.map_cons, List.map_cons, hb0id]
    have hnd3 : ((accessStash3 st "write" id (some d) r ++ filterReal (treeBlocks
        (readPath st.tree st.stash (getPathIndices st.height (oldLeafOf st id r))).1)).map
        Block.block_id).Nodup := by
      rw [List.map_append, hids3, ← List.map_append]
      exact hnd1
    obtain ⟨hwf', hlive'⟩ := wf_assemble st (pmStep2 st id r)
      (getPathIndices st.height (oldLeafOf st id r))
      (readPath st.tree st.stash (getPathIndices st.height (oldLeafOf st id r))).1
      (accessStash3 st "write" id (some d) r) r.dummy
      (access st "write" id (some d) r).1
      (access_tree st "write" id (some d) r) (access_stash st "write" id (some d) r)
      (access_position_map st "write" id (some d) r) (access_height st "write" id (some d) r)
      (access_bucket_capacity st "write" id (some d) r)
      hndP hrange hrplen
      (fun j hj => readPath_tree_mem _ st.tree st.stash j hj hndP)
      (fun j hjlt hj => readPath_tree_notMem _ st.tree st.stash j hj)
      hwf (pmStep2_lt st id r hwf hr)
      (by
        intro b hb
        rw [pmStep2_eq, if_neg (hnoid b hb)])
      hreal3 hmapped3 hnd3
    refine ⟨hwf', by rw [access_result, hfu], ?_⟩
    refine hlive'.trans ?_
    rw [hS3]
    have hchain : (s1 ++ { block_id := id, data := d, is_dummy := false } :: s2) ++
        filterReal (treeBlocks (readPath st.tree st.stash
          (getPathIndices st.height (oldLeafOf st id r))).1) =
        s1 ++ { block_id := id, data := d, is_dummy := false } ::
          (s2 ++ filterReal (treeBlocks (readPath st.tree st.stash
            (getPathIndices st.height (oldLeafOf st id r))).1)) := by
      simp [List.append_assoc]
    rw [hchain]
    refine List.perm_middle.trans ?_
    refine List.Perm.cons _ ?_
    -- remaining blocks are exactly the other live blocks
    have hfilter : (liveBlocks st).filter (fun b => b.block_id != id) |>.Perm
        (s1 ++ (s2 ++ filterReal (treeBlocks (readPath st.tree st.stash
          (getPathIndices st.height (oldLeafOf st id r))).1))) := by
      have h1 := (hperm1.symm).filter (fun b => b.block_id != id)
      rw [hsplit] at h1
      have heq : ((s1 ++ b0 :: s2) ++ filterReal (treeBlocks (readPath st.tree st.stash
          (getPathIndices st.height (oldLeafOf st id r))).1)).filter
            (fun b => b.block_id != id) =
          s1 ++ (s2 ++ filterReal (treeBlocks (readPath st.tree st.stash
            (getPathIndices st.height (oldLeafOf st id r))).1)) := by
        rw [List.filter_append, List.filter_append, List.filter_cons_of_neg (by simp [hb0id]),
          hfilter_live s1 hs1, hfilter_live s2 hs2, hfilter_live _ hnoid, List.append_assoc]
      rw [heq] at h1
      exact h1
    exact hfilter.symm
  · push_neg at hex
    have hfu : findUpdate "write" id (some d) (readPath st.tree st.stash
        (getPathIndices st.height (oldLeafOf st id r))).2 =
        ((readPath st.tree st.stash
          (getPathIndices st.height (oldLeafOf st id r))).2, none, false) :=
      findUpdate_not_found _ _ _ _ hex
    have hS3 : accessStash3 st "write" id (some d) r =
        (readPath st.tree st.stash (getPathIndices st.height (oldLeafOf st id r))).2 ++
          [{ block_id := id, data := d, is_dummy := false }] := by
      rw [accessStash3_some, hfu]
      simp
    have hmem3 : ∀ x ∈ accessStash3 st "write" id (some d) r,
        x = { block_id := id, data := d, is_dummy := false } ∨
        x ∈ (readPath st.tree st.stash
          (getPathIndices st.height (oldLeafOf st id r))).2 := by
      intro x hx
      rw [hS3] at hx
      rcases List.mem_append.mp hx with h | h
      · exact Or.inr h
      · rcases List.mem_cons.mp h with h | h
        · exact Or.inl h
        · exact absurd h (List.not_mem_nil _)
    have hreal3 : ∀ b ∈ accessStash3 st "write" id (some d) r, b.is_dummy = false := by
      intro b hb
      rcases hmem3 b hb with rfl | h
      · rfl
      · exact hreal1 b h
    have hmapped3 : ∀ b ∈ accessStash3 st "write" id (some d) r,
        (pmStep2 st id r b.block_id).isSome = true := by
      intro b hb
      rcases hmem3 b hb with rfl | h
      · exact pmStep2_isSome_self st id r
      · exact pmStep2_isSome st id r _ (hmapped1 b h)
    have hpermS3 : (accessStash3 st "write" id (some d) r ++ filterReal (treeBlocks
        (readPath st.tree st.stash (getPathIndices st.height (oldLeafOf st id r))).1)).Perm
        ({ block_id := id, data := d, is_dummy := false } ::
          ((readPath st.tree st.stash
            (getPathIndices st.height (oldLeafOf st id r))).2 ++ filterReal (treeBlocks
            (readPath st.tree st.stash (getPathIndices st.height (oldLeafOf st id r))).1))) := by
      rw [hS3, List.append_assoc, List.singleton_append]
      exact List.perm_middle
    have hfresh : id ∉ (((readPath st.tree st.stash
        (getPathIndices st.height (oldLeafOf st id r))).2 ++ filterReal (treeBlocks
        (readPath st.tree st.stash (getPathIndices st.height (oldLeafOf st id r))).1)).map
        Block.block_id) := by
      intro hmem
      rw [List.mem_map] at hmem
      obtain ⟨b, hb, hbid⟩ := hmem
      rcases List.mem_append.mp hb with h | h
      · exact hex b h hbid
      · exact hnoid b h hbid
    have hnd3 : ((accessStash3 st "write" id (some d) r ++ filterReal (treeBlocks
        (readPath st.tree st.stash (getPathIndices st.height (oldLeafOf st id r))).1)).map
        Block.block_id).Nodup := by
      refine ((hpermS3.map Block.block_id).nodup_iff).mpr ?_
      rw [List.map_cons]
      exact List.nodup_cons.mpr ⟨hfresh, hnd1⟩
    obtain ⟨hwf', hlive'⟩ := wf_assemble st (pmStep2 st id r)
      (getPathIndices st.height (oldLeafOf st id r))
      (readPath st.tree st.stash (getPathIndices st.height (oldLeafOf st id r))).1
      (accessStash3 st "write" id (some d) r) r.dummy
      (access st "write" id (some d) r).1
      (access_tree st "write" id (some d) r) (access_stash st "write" id (some d) r)
      (access_position_map st "write" id (some d) r) (access_height st "write" id (some d) r)
      (access_bucket_capacity st "write" id (some d) r)
      hndP hrange hrplen
      (fun j hj => readPath_tree_mem _ st.tree st.stash j hj hndP)
      (fun j hjlt hj => readPath_tree_notMem _ st.tree st.stash j hj)
      hwf (pmStep2_lt st id r hwf hr)
      (by
        intro b hb
        rw [pmStep2_eq, if_neg (hnoid b hb)])
      hreal3 hmapped3 hnd3
    refine ⟨hwf', by rw [access_result, hfu], ?_⟩
    refine (hlive'.trans hpermS3).trans ?_
    refine List.Perm.cons _ ?_
    have hlivefilter : (liveBlocks st).filter (fun b => b.block_id != id) =
        liveBlocks st := by
      rw [List.filter_eq_self]
      intro a ha
      have := hperm1.symm.subset ha
      rcases List.mem_append.mp this with h | h
      · simpa using hex a h
      · simpa using hnoid a h
    rw [hlivefilter]
    exact hperm1

/-- One read access: the invariant is preserved, the result is the data
of the live block with the requested ID (if any), and the live blocks
are unchanged. -/
theorem access_read_spec (st : OramState) (id : Int) (r : AccessRand)
    (hwf : WF st) (hr : validRand st r) :
    WF (access st "read" id none r).1 ∧
    (access st "read" id none r).2 = liveData st id ∧
    (liveBlocks (access st "read" id none r).1).Perm (liveBlocks st) := by
  obtain ⟨hl, hndP, hplen, hrange, hrplen, hreal1, hmapped1, hperm1, hnd1, htm1⟩ :=
    access_core st id r hwf hr
  have hnoid := readPath_no_target st id r hwf hr
  have hstash1nd : (((readPath st.tree st.stash
      (getPathIndices st.height (oldLeafOf st id r))).2).map Block.block_id).Nodup := by
    rw [List.map_append] at hnd1
    exact hnd1.of_append_left
  have hlive_nd : ((liveBlocks st).map Block.block_id).Nodup := hwf.ids_nodup
  -- the stash and result of the target-scan
  have hS3 : accessStash3 st "read" id none r =
      (findUpdate "read" id none (readPath st.tree st.stash
        (getPathIndices st.height (oldLeafOf st id r))).2).1 := accessStash3_none _ _ _ _
  by_cases hex : ∃ b0 ∈ (readPath st.tree st.stash
      (getPathIndices st.height (oldLeafOf st id r))).2, b0.block_id = id
  · obtain ⟨b0, hb0mem, hb0id⟩ := hex
    obtain ⟨s1, s2, hsplit, hs1, _⟩ := split_first_match _ id b0 hb0mem hb0id hstash1nd
    have hfu : findUpdate "read" id none (readPath st.tree st.stash
        (getPathIndices st.height (oldLeafOf st id r))).2 =
        ((readPath st.tree st.stash
          (getPathIndices st.height (oldLeafOf st id r))).2, some b0.data, true) := by
      rw [hsplit]
      rw [findUpdate_found_read id none s1 b0 s2 hs1 hb0id]
    have hS3' : accessStash3 st "read" id none r =
        (readPath st.tree st.stash (getPathIndices st.height (oldLeafOf st id r))).2 := by
      rw [hS3, hfu]
    have hliveData : liveData st id = some b0.data := by
      have hb0live : b0 ∈ liveBlocks st :=
        hperm1.subset (List.mem_append_left _ hb0mem)
      rw [liveData, find?_eq_of_unique (liveBlocks st) id b0 hb0live hb0id hlive_nd]
      rfl
    obtain ⟨hwf', hlive'⟩ := wf_assemble st (pmStep2 st id r)
      (getPathIndices st.height (oldLeafOf st id r))
      (readPath st.tree st.stash (getPathIndices st.height (oldLeafOf st id r))).1
      (accessStash3 st "read" id none r) r.dummy
      (access st "read" id none r).1
      (access_tree st "read" id none r) (access_stash st "read" id none r)
      (access_position_map st "read" id none r) (access_height st "read" id none r)
      (access_bucket_capacity st "read" id none r)
      hndP hrange hrplen
      (fun j hj => readPath_tree_mem _ st.tree st.stash j hj hndP)
      (fun j hjlt hj => readPath_tree_notMem _ st.tree st.stash j hj)
      hwf (pmStep2_lt st id r hwf hr)
      (by
        intro b hb
        rw [pmStep2_eq, if_neg (hnoid b hb)])
      (by rw [hS3']; exact hreal1)
      (by
        rw [hS3']
        intro b hb
        exact pmStep2_isSome st id r _ (hmapped1 b hb))
      (by rw [hS3']; exact hnd1)
    refine ⟨hwf', by rw [access_result, hfu, hliveData], ?_⟩
    refine hlive'.trans ?_
    rw [hS3']
    exact hperm1
  · push_neg at hex
    have hfu : findUpdate "read" id none (readPath st.tree st.stash
        (getPathIndices st.height (oldLeafOf st id r))).2 =
        ((readPath st.tree st.stash
          (getPathIndices st.height (oldLeafOf st id r))).2, none, false) :=
      findUpdate_not_found _ _ _ _ hex
    have hS3' : accessStash3 st "read" id none r =
        (readPath st.tree st.stash (getPathIndices st.height (oldLeafOf st id r))).2 := by
      rw [hS3, hfu]
    have hliveData : liveData st id = none := by
      rw [liveData, find?_eq_none_of_no_match]
      · rfl
      · intro b hb
        have := hperm1.symm.subset hb
        rcases List.mem_append.mp this with h | h
        · exact hex b h
        · exact hnoid b h
    obtain ⟨hwf', hlive'⟩ := wf_assemble st (pmStep2 st id r)
      (getPathIndices st.height (oldLeafOf st id r))
      (readPath st.tree st.stash (getPathIndices st.height (oldLeafOf st id r))).1
      (accessStash3 st "read" id none r) r.dummy
      (access st "read" id none r).1
      (access_tree st "read" id none r) (access_stash st "read" id none r)
      (access_position_map st "read" id none r) (access_height st "read" id none r)
      (access_bucket_capacity st "read" id none r)
      hndP hrange hrplen
      (fun j hj => readPath_tree_mem _ st.tree st.stash j hj hndP)
      (fun j hjlt hj => readPath_tree_notMem _ st.tree st.stash j hj)
      hwf (pmStep2_lt st id r hwf hr)
      (by
        intro b hb
        rw [pmStep2_eq, if_neg (hnoid b hb)])
      (by rw [hS3']; exact hreal1)
      (by
        rw [hS3']
        intro b hb
        exact pmStep2_isSome st id r _ (hmapped1 b hb))
      (by rw [hS3']; exact hnd1)
    refine ⟨hwf', by rw [access_result, hfu, hliveData], ?_⟩
    refine hlive'.trans ?_
    rw [hS3']
    exact hperm1

/-! ## Payload tracking through accesses -/

theorem liveBlocks_ids_nodup (st : OramState) (hwf : WF st) :
    ((liveBlocks st).map Block.block_id).Nodup := hwf.ids_nodup

theorem liveData_eq_of_perm {st st' : OramState}
    (h : (liveBlocks st').Perm (liveBlocks st))
    (hnd : ((liveBlocks st).map Block.block_id).Nodup) (id : Int) :
    liveData st' id = liveData st id := by
  cases hf : (liveBlocks st).find? (fun b => b.block_id == id) with
  | some b =>
      have hmem := List.mem_of_find?_eq_some hf
      have hid : b.block_id = id := by simpa using List.find?_some hf
      have hnd' : ((liveBlocks st').map Block.block_id).Nodup :=
        ((h.map _).nodup_iff).mpr hnd
      rw [liveData, liveData, hf,
        find?_eq_of_unique _ id b (h.symm.subset hmem) hid hnd']
  | none =>
      have hf' := List.find?_eq_none.mp hf
      rw [liveData, liveData, hf, find?_eq_none_of_no_match]
      intro b hb hbid
      exact hf' b (h.subset hb) (by simpa using hbid)

theorem liveData_write_self (st : OramState) (id : Int) (d : List Nat) (r : AccessRand)
    (hwf : WF st) (hr : validRand st r) :
    liveData (access st "write" id (some d) r).1 id = some d := by
  obtain ⟨hwf', _, hperm⟩ := access_write_spec st id d r hwf hr
  have hnd' : ((liveBlocks (access st "write" id (some d) r).1).map Block.block_id).Nodup :=
    hwf'.ids_nodup
  have hmem : ({ block_id := id, data := d, is_dummy := false } : Block) ∈
      liveBlocks (access st "write" id (some d) r).1 :=
    hperm.symm.subset (List.mem_cons_self _ _)
  rw [liveData, find?_eq_of_unique _ id _ hmem rfl hnd']
  rfl

theorem liveData_write_other (st : OramState) (id : Int) (d : List Nat) (r : AccessRand)
    (hwf : WF st) (hr : validRand st r) (id' : Int) (hne : id' ≠ id) :
    liveData (access st "write" id (some d) r).1 id' = liveData st id' := by
  obtain ⟨hwf', _, hperm⟩ := access_write_spec st id d r hwf hr
  have hnd' : ((liveBlocks (access st "write" id (some d) r).1).map Block.block_id).Nodup :=
    hwf'.ids_nodup
  cases hf : (liveBlocks st).find? (fun b => b.block_id == id') with
  | some b =>
      have hmem := List.mem_of_find?_eq_some hf
      have hid : b.block_id = id' := by simpa using List.find?_some hf
      have hmem' : b ∈ liveBlocks (access st "write" id (some d) r).1 := by
        refine hperm.symm.subset (List.mem_cons_of_mem _ ?_)
        rw [List.mem_filter]
        exact ⟨hmem, by simp [hid, hne]⟩
      rw [liveData, liveData, hf, find?_eq_of_unique _ id' b hmem' hid hnd']
  | none =>
      have hf' := List.find?_eq_none.mp hf
      rw [liveData, liveData, hf, find?_eq_none_of_no_match]
      intro b hb hbid
      have := hperm.subset hb
      rcases List.mem_cons.mp this with rfl | hbf
      · exact hne (by simpa using hbid.symm)
      · exact hf' b (List.mem_of_mem_filter hbf) (by simpa using hbid)

theorem liveData_read_eq (st : OramState) (id : Int) (r : AccessRand)
    (hwf : WF st) (hr : validRand st r) (id' : Int) :
    liveData (access st "read" id none r).1 id' = liveData st id' := by
  obtain ⟨_, _, hperm⟩ := access_read_spec st id r hwf hr
  exact liveData_eq_of_perm hperm hwf.ids_nodup id'

/-! ## The invariant at construction and over access sequences -/

theorem ceilLog2Fuel_eq (f1 : Nat) : ∀ f2 n, n ≤ f1 → n ≤ f2 →
    ceilLog2Fuel f1 n = ceilLog2Fuel f2 n := by
  induction f1 with
  | zero =>
      intro f2 n h1 _
      interval_cases n
      cases f2 <;> simp [ceilLog2Fuel]
  | succ f ih =>
      intro f2 n h1 h2
      cases f2 with
      | zero =>
          interval_cases n
          simp [ceilLog2Fuel]
      | succ g =>
          by_cases hn : n ≤ 1
          · simp [ceilLog2Fuel, hn]
          · simp only [ceilLog2Fuel, if_neg hn]
            rw [ih g ((n + 1) / 2) (by omega) (by omega)]

theorem ceilLog2_unfold (n : Nat) :
    ceilLog2 n = if n ≤ 1 then 0 else ceilLog2 ((n + 1) / 2) + 1 := by
  by_cases hn : n ≤ 1
  · interval_cases n <;> simp [ceilLog2, ceilLog2Fuel]
  · obtain ⟨m, rfl⟩ : ∃ m, n = m + 1 := ⟨n - 1, by omega⟩
    simp only [ceilLog2, ceilLog2Fuel, if_neg hn]
    rw [ceilLog2Fuel_eq m ((m + 1 + 1) / 2) ((m + 1 + 1) / 2) (by omega) (by omega)]

theorem ceilLog2_eq_clog (n : Nat) : ceilLog2 n = Nat.clog 2 n := by
  induction n using Nat.strong_induction_on with
  | _ n ih =>
      by_cases hn : n ≤ 1
      · rw [ceilLog2_unfold, if_pos hn, Nat.clog_of_right_le_one hn]
      · rw [ceilLog2_unfold, if_neg hn, ih ((n + 1) / 2) (by omega)]
        conv_rhs => rw [Nat.clog_of_two_le (by norm_num) (by omega : 2 ≤ n)]
        norm_num

theorem init_height (N bs Z : Nat) :
    (PathORAM.init N bs Z).height = if N > 1 then max 1 (ceilLog2 N) else 1 := rfl

theorem flatten_replicate_nil {α : Type} : ∀ n : Nat,
    (List.replicate n ([] : List α)).flatten = [] := by
  intro n
  induction n with
  | zero => rfl
  | succ n ih => rw [List.replicate_succ, List.flatten_cons, ih]; rfl

theorem init_tree (N bs Z : Nat) : (PathORAM.init N bs Z).tree =
    List.replicate (2 ^ ((PathORAM.init N bs Z).height + 1) - 1)
      { blocks := [], capacity := Z } := rfl

theorem treeBlocks_init (N bs Z : Nat) : treeBlocks (PathORAM.init N bs Z).tree = [] := by
  rw [init_tree, treeBlocks, List.map_replicate]
  exact flatten_replicate_nil _

theorem init_tree_getElem (N bs Z : Nat) (i : Nat)
    (h : i < (PathORAM.init N bs Z).tree.length) :
    (PathORAM.init N bs Z).tree[i] = { blocks := [], capacity := Z } := by
  have hlen : i < 2 ^ ((PathORAM.init N bs Z).height + 1) - 1 := by
    rw [init_tree, List.length_replicate] at h
    exact h
  refine getElem_eq_of_getElem? h ?_
  rw [init_tree, List.getElem?_replicate, if_pos hlen]

theorem WF_init (N bs Z : Nat) : WF (PathORAM.init N bs Z) := by
  refine ⟨?_, ?_, ?_, ?_, ?_, ?_, ?_, ?_, ?_⟩
  · rw [init_height]
    split
    · exact le_max_left 1 _
    · exact le_refl 1
  · rw [init_tree, List.length_replicate]
    rfl
  · intro i h
    rw [init_tree_getElem N bs Z i h]
    rfl
  · intro i h
    rw [init_tree_getElem N bs Z i h]
    exact Nat.zero_le _
  · intro id l h
    exact absurd h (by simp [PathORAM.init])
  · intro b hb
    exact absurd hb (List.not_mem_nil _)
  · intro b hb
    exact absurd hb (List.not_mem_nil _)
  · intro i h b hb
    rw [init_tree_getElem N bs Z i h] at hb
    exact absurd hb (List.not_mem_nil _)
  · show (realIds ([] ++ treeBlocks (PathORAM.init N bs Z).tree)).Nodup
    rw [List.nil_append, treeBlocks_init]
    exact List.nodup_nil

theorem access_numLeaves (st : OramState) (op : String) (id : Int)
    (nd : Option (List Nat)) (r : AccessRand) :
    (access st op id nd r).1.numLeaves = st.numLeaves := by
  rw [OramState.numLeaves, OramState.numLeaves, access_height]

theorem access_WF_step (st : OramState) (s : AccessStep) (hwf : WF st)
    (hv : validRand st s.rand) (hs : s.wf) :
    WF (access st s.op s.block_id s.new_data s.rand).1 := by
  rcases hs with ⟨hop, hnd⟩ | ⟨hop, hnd⟩
  · rw [hop, hnd]
    exact (access_read_spec st s.block_id s.rand hwf hv).1
  · obtain ⟨d, hd⟩ := Option.isSome_iff_exists.mp hnd
    rw [hop, hd]
    exact (access_write_spec st s.block_id d s.rand hwf hv).1

theorem runAccesses_WF : ∀ (ops : List AccessStep) (st : OramState), WF st →
    (∀ s ∈ ops, s.wf ∧ validRand st s.rand) → WF (runAccesses st ops) := by
  intro ops
  induction ops with
  | nil => intro st hwf _; exact hwf
  | cons s rest ih =>
      intro st hwf hops
      have hs := hops s (List.mem_cons_self _ _)
      simp only [runAccesses]
      refine ih _ (access_WF_step st s hwf hs.2 hs.1) ?_
      intro s' hs'
      have h := hops s' (List.mem_cons_of_mem _ hs')
      refine ⟨h.1, ?_⟩
      rw [validRand, access_numLeaves]
      exact h.2

/-- Tree shape after one access: the path is `H+1` distinct valid
indices; buckets off the accessed path are untouched; every bucket on
the path is written back with exactly `bucket_capacity` blocks. -/
theorem access_bucket_spec (st : OramState) (op : String) (id : Int)
    (nd : Option (List Nat)) (r : AccessRand) (hwf : WF st) (hr : validRand st r) :
    (getPathIndices st.height (oldLeafOf st id r)).length = st.height + 1 ∧
    (getPathIndices st.height (oldLeafOf st id r)).Nodup ∧
    (∀ i ∈ getPathIndices st.height (oldLeafOf st id r), i < st.tree.length) ∧
    (access st op id nd r).1.tree.length = st.tree.length ∧
    (∀ j, j < st.tree.length → j ∉ getPathIndices st.height (oldLeafOf st id r) →
      (access st op id nd r).1.tree[j]? = st.tree[j]?) ∧
    (∀ j ∈ getPathIndices st.height (oldLeafOf st id r), ∃ bk : Bucket,
      (access st op id nd r).1.tree[j]? = some bk ∧
      bk.blocks.length = st.bucket_capacity ∧ bk.capacity = st.bucket_capacity) := by
  obtain ⟨hl, hndP, hplen, hrange, hrplen, _, _, _, _, _⟩ := access_core st id r hwf hr
  have hndR : (getPathIndices st.height (oldLeafOf st id r)).reverse.Nodup :=
    List.nodup_reverse.mpr hndP
  have hrangeR : ∀ i ∈ (getPathIndices st.height (oldLeafOf st id r)).reverse,
      i < (readPath st.tree st.stash (getPathIndices st.height (oldLeafOf st id r))).1.length := by
    intro i hi
    rw [hrplen]
    exact hrange i (List.mem_reverse.mp hi)
  refine ⟨hplen, hndP, hrange, ?_, ?_, ?_⟩
  · rw [access_tree, writeBackLoop_tree_length, hrplen]
  · intro j hjlt hj
    rw [access_tree, writeBackLoop_tree_notMem _ _ _ _ _ _ _ _
      (fun h => hj (List.mem_reverse.mp h)),
      readPath_tree_notMem _ _ _ _ hj]
  · intro j hj
    have hjlt : j < st.tree.length := hrange j hj
    obtain ⟨s, kj, _, heq⟩ := writeBackLoop_tree_mem (pmStep2 st id r) st.height r.dummy
      (getPathIndices st.height (oldLeafOf st id r)).reverse 0
      (readPath st.tree st.stash (getPathIndices st.height (oldLeafOf st id r))).1
      (accessStash3 st op id nd r) j hndR hrangeR (List.mem_reverse.mpr hj)
    have hT1j : (readPath st.tree st.stash
        (getPathIndices st.height (oldLeafOf st id r))).1[j]? =
        some { st.tree[j] with blocks := ([] : List Block) } := by
      rw [readPath_tree_mem _ st.tree st.stash j hj hndP, List.getElem?_eq_getElem hjlt]
      rfl
    have hgd : (readPath st.tree st.stash
        (getPathIndices st.height (oldLeafOf st id r))).1.getD j { blocks := [], capacity := 0 } =
        { st.tree[j] with blocks := ([] : List Block) } := getD_eq_of_getElem? hT1j
    rw [hgd, evictLoop_eq] at heq
    refine ⟨_, by rw [access_tree]; exact heq, ?_, ?_⟩
    · rw [padToCapacity_length]
      · exact hwf.cap_eq j hjlt
      · simp only [List.nil_append, List.length_take, List.length_nil, Nat.sub_zero]
        exact le_trans (Nat.min_le_left _ _) (le_refl _)
    · rw [padToCapacity_capacity]
      exact hwf.cap_eq j hjlt

/-! ## Pool-level refinement -/

theorem write_eq (st : OramState) (id : Int) (v : List Nat) (r : AccessRand) :
    st.write id v r = (access st "write" id (some (padTrunc st.block_size v)) r).1 := rfl

theorem read_eq (st : OramState) (id : Int) (r : AccessRand) :
    st.read id r = access st "read" id none r := rfl

theorem getBlockId_some (p : PoolState) (k : String) (i : Int)
    (h : p.key_to_id k = some i) : ORAMPool.getBlockId p k = (p, i) := by
  unfold ORAMPool.getBlockId
  rw [h]

theorem getBlockId_none (p : PoolState) (k : String)
    (h : p.key_to_id k = none) : ORAMPool.getBlockId p k =
      ({ p with
          key_to_id := fun x => if x = k then some p.next_id else p.key_to_id x
          next_id := p.next_id + 1 }, p.next_id) := by
  unfold ORAMPool.getBlockId
  rw [h]

theorem store_oram (p : PoolState) (k : String) (v : List Nat) (r : AccessRand) :
    (ORAMPool.store p k v r).1.oram =
      (ORAMPool.getBlockId p k).1.oram.write (ORAMPool.getBlockId p k).2 v r := rfl

theorem store_table (p : PoolState) (k : String) (v : List Nat) (r : AccessRand) :
    (ORAMPool.store p k v r).1.key_to_id = (ORAMPool.getBlockId p k).1.key_to_id := rfl

theorem store_next (p : PoolState) (k : String) (v : List Nat) (r : AccessRand) :
    (ORAMPool.store p k v r).1.next_id = (ORAMPool.getBlockId p k).1.next_id := rfl

theorem poolInv_store (p : PoolState) (m : String → Option (List Nat)) (k : String)
    (v : List Nat) (r : AccessRand) (hinv : PoolInv p m) (hr : validRand p.oram r) :
    PoolInv (ORAMPool.store p k v r).1 (fun x => if x = k then some v else m x) := by
  cases hkey : p.key_to_id k with
  | some i =>
      have hg := getBlockId_some p k i hkey
      have horam : (ORAMPool.store p k v r).1.oram =
          (access p.oram "write" i (some (padTrunc p.oram.block_size v)) r).1 := by
        rw [store_oram, hg, write_eq]
      have hbs : (ORAMPool.store p k v r).1.oram.block_size = p.oram.block_size := by
        rw [horam, access_block_size]
      refine ⟨?_, ?_, ?_, ?_, ?_⟩
      · rw [horam]
        exact (access_write_spec p.oram i (padTrunc p.oram.block_size v) r hinv.wf hr).1
      · rw [store_next, hg]
        exact hinv.next_nonneg
      · intro k' i' h
        rw [store_table, hg] at h
        rw [store_next, hg]
        exact hinv.ids_lt k' i' h
      · intro k1 k2 i' h1 h2
        rw [store_table, hg] at h1 h2
        exact hinv.inj k1 k2 i' h1 h2
      · intro k' v' hv'
        rw [store_table, hg, hbs, horam]
        by_cases hk' : k' = k
        · subst hk'
          rw [if_pos rfl] at hv'
          cases hv'
          exact ⟨i, hkey, liveData_write_self p.oram i _ r hinv.wf hr⟩
        · rw [if_neg hk'] at hv'
          obtain ⟨i', hki', hld⟩ := hinv.data k' v' hv'
          have hne : i' ≠ i := fun h => hk' (hinv.inj k' k i' hki' (h ▸ hkey))
          exact ⟨i', hki',
            by rw [liveData_write_other p.oram i _ r hinv.wf hr i' hne]; exact hld⟩
  | none =>
      have hg := getBlockId_none p k hkey
      have horam : (ORAMPool.store p k v r).1.oram =
          (access p.oram "write" p.next_id (some (padTrunc p.oram.block_size v)) r).1 := by
        rw [store_oram, hg, write_eq]
      have hbs : (ORAMPool.store p k v r).1.oram.block_size = p.oram.block_size := by
        rw [horam, access_block_size]
      have htab : (ORAMPool.store p k v r).1.key_to_id =
          fun x => if x = k then some p.next_id else p.key_to_id x := by
        rw [store_table, hg]
      have hnext : (ORAMPool.store p k v r).1.next_id = p.next_id + 1 := by
        rw [store_next, hg]
      refine ⟨?_, ?_, ?_, ?_, ?_⟩
      · rw [horam]
        exact (access_write_spec p.oram p.next_id (padTrunc p.oram.block_size v) r
          hinv.wf hr).1
      · rw [hnext]
        exact le_trans hinv.next_nonneg (by omega)
      · intro k' i' h
        have h2 : (if k' = k then some p.next_id else p.key_to_id k') = some i' := by
          rw [htab] at h; exact h
        rw [hnext]
        by_cases hk' : k' = k
        · rw [if_pos hk'] at h2
          cases h2
          exact ⟨hinv.next_nonneg, by omega⟩
        · rw [if_neg hk'] at h2
          obtain ⟨ha, hb⟩ := hinv.ids_lt k' i' h2
          exact ⟨ha, by omega⟩
      · intro k1 k2 i' h1 h2
        have h1' : (if k1 = k then some p.next_id else p.key_to_id k1) = some i' := by
          rw [htab] at h1; exact h1
        have h2' : (if k2 = k then some p.next_id else p.key_to_id k2) = some i' := by
          rw [htab] at h2; exact h2
        by_cases hk1 : k1 = k <;> by_cases hk2 : k2 = k
        · rw [hk1, hk2]
        · rw [if_pos hk1] at h1'
          rw [if_neg hk2] at h2'
          cases h1'
          obtain ⟨_, hlt⟩ := hinv.ids_lt k2 _ h2'
          omega
        · rw [if_neg hk1] at h1'
          rw [if_pos hk2] at h2'
          cases h2'
          obtain ⟨_, hlt⟩ := hinv.ids_lt k1 _ h1'
          omega
        · rw [if_neg hk1] at h1'
          rw [if_neg hk2] at h2'
          exact hinv.inj k1 k2 i' h1' h2'
      · intro k' v' hv'
        by_cases hk' : k' = k
        · subst hk'
          rw [if_pos rfl] at hv'
          cases hv'
          refine ⟨p.next_id, by rw [htab]; simp, ?_⟩
          rw [hbs, horam]
          exact liveData_write_self p.oram p.next_id _ r hinv.wf hr
        · rw [if_neg hk'] at hv'
          obtain ⟨i', hki', hld⟩ := hinv.data k' v' hv'
          have hne : i' ≠ p.next_id := by
            obtain ⟨_, hlt⟩ := hinv.ids_lt k' i' hki'
            omega
          refine ⟨i', by rw [htab]; simp [hk']; exact hki', ?_⟩
          rw [hbs, horam,
            liveData_write_other p.oram p.next_id _ r hinv.wf hr i' hne]
          exact hld

theorem retrieve_state_unknown (p : PoolState) (k : String) (r : AccessRand)
    (h : p.key_to_id k = none) : ORAMPool.retrieve p k r =
      (p, none, { pool := "oram", found := some false, access_count := none }) := by
  unfold ORAMPool.retrieve
  rw [h]

theorem retrieve_state_known (p : PoolState) (k : String) (i : Int) (r : AccessRand)
    (h : p.key_to_id k = some i) :
    (ORAMPool.retrieve p k r).1 = { p with oram := (p.oram.read i r).1 } := by
  unfold ORAMPool.retrieve
  rw [h]

theorem poolInv_retrieve (p : PoolState) (m : String → Option (List Nat)) (k : String)
    (r : AccessRand) (hinv : PoolInv p m) (hr : validRand p.oram r) :
    PoolInv (ORAMPool.retrieve p k r).1 m := by
  cases hkey : p.key_to_id k with
  | none =>
      rw [retrieve_state_unknown p k r hkey]
      exact hinv
  | some i =>
      rw [retrieve_state_known p k i r hkey]
      have hread : (p.oram.read i r).1 = (access p.oram "read" i none r).1 := rfl
      refine ⟨?_, hinv.next_nonneg, hinv.ids_lt, hinv.inj, ?_⟩
      · rw [hread]
        exact (access_read_spec p.oram i r hinv.wf hr).1
      · intro k' v' hv'
        obtain ⟨i', hki', hld⟩ := hinv.data k' v' hv'
        refine ⟨i', hki', ?_⟩
        show liveData (p.oram.read i r).1 i' = _
        rw [hread, liveData_read_eq p.oram i r hinv.wf hr i',
          show (access p.oram "read" i none r).1.block_size = p.oram.block_size from rfl]
        exact hld

theorem pool_retrieve_result (p : PoolState) (m : String → Option (List Nat))
    (k : String) (v : List Nat) (r : AccessRand) (hinv : PoolInv p m)
    (hr : validRand p.oram r) (hm : m k = some v) :
    (ORAMPool.retrieve p k r).2.1 = some (rstripZeros (padTrunc p.oram.block_size v)) := by
  obtain ⟨i, hki, hld⟩ := hinv.data k v hm
  have hread : (p.oram.read i r).2 = liveData p.oram i :=
    (access_read_spec p.oram i r hinv.wf hr).2.1
  unfold ORAMPool.retrieve
  rw [hki]
  simp only []
  rw [hread, hld]
  by_cases hpad : padTrunc p.oram.block_size v = []
  · rw [hpad]
    simp [rstripZeros, List.dropWhile]
  · simp [hpad]

theorem getBlockId_oram (p : PoolState) (k : String) :
    (ORAMPool.getBlockId p k).1.oram = p.oram := by
  unfold ORAMPool.getBlockId
  cases h : p.key_to_id k <;> rfl

theorem store_numLeaves (p : PoolState) (k : String) (v : List Nat) (r : AccessRand) :
    (ORAMPool.store p k v r).1.oram.numLeaves = p.oram.numLeaves := by
  rw [store_oram, write_eq, access_numLeaves, getBlockId_oram]

theorem retrieve_numLeaves (p : PoolState) (k : String) (r : AccessRand) :
    (ORAMPool.retrieve p k r).1.oram.numLeaves = p.oram.numLeaves := by
  cases h : p.key_to_id k with
  | none => rw [retrieve_state_unknown p k r h]
  | some i =>
      rw [retrieve_state_known p k i r h]
      show (access p.oram "read" i none r).1.numLeaves = _
      rw [access_numLeaves]

theorem runPool_inv : ∀ (ops : List PoolOp) (p : PoolState)
    (m : String → Option (List Nat)), PoolInv p m →
    (∀ op ∈ ops, validRand p.oram op.rand) →
    PoolInv (runPool p ops) (modelRun m ops) := by
  intro ops
  induction ops with
  | nil => intro p m hinv _; exact hinv
  | cons op rest ih =>
      intro p m hinv hops
      have hop := hops op (List.mem_cons_self _ _)
      cases op with
      | store k v r =>
          simp only [runPool, modelRun, modelStep]
          refine ih _ _ (poolInv_store p m k v r hinv hop) ?_
          intro op' hop'
          have h := hops op' (List.mem_cons_of_mem _ hop')
          rw [validRand, store_numLeaves]
          exact h
      | retrieve k r =>
          simp only [runPool, modelRun, modelStep]
          refine ih _ _ (poolInv_retrieve p m k r hinv hop) ?_
          intro op' hop'
          have h := hops op' (List.mem_cons_of_mem _ hop')
          rw [validRand, retrieve_numLeaves]
          exact h

theorem runPool_numLeaves : ∀ (ops : List PoolOp) (p : PoolState),
    (runPool p ops).oram.numLeaves = p.oram.numLeaves := by
  intro ops
  induction ops with
  | nil => intro p; rfl
  | cons op rest ih =>
      intro p
      cases op with
      | store k v r => simp only [runPool]; rw [ih, store_numLeaves]
      | retrieve k r => simp only [runPool]; rw [ih, retrieve_numLeaves]

theorem runPool_block_size : ∀ (ops : List PoolOp) (p : PoolState),
    (runPool p ops).oram.block_size = p.oram.block_size := by
  intro ops
  induction ops with
  | nil => intro p; rfl
  | cons op rest ih =>
      intro p
      cases op with
      | store k v r =>
          simp only [runPool]
          rw [ih, store_oram, write_eq, access_block_size, getBlockId_oram]
      | retrieve k r =>
          simp only [runPool]
          rw [ih]
          cases h : p.key_to_id k with
          | none => rw [retrieve_state_unknown p k r h]
          | some i =>
              rw [retrieve_state_known p k i r h]
              exact access_block_size p.oram "read" i none r

/-! ## Stash growth: fresh writes accumulate live blocks -/

theorem runAccesses_access_count : ∀ (ops : List AccessStep) (st : OramState),
    (runAccesses st ops).access_count = st.access_count + ops.length := by
  intro ops
  induction ops with
  | nil => intro st; rfl
  | cons s rest ih =>
      intro st
      simp only [runAccesses, List.length_cons]
      rw [ih, access_access_count]
      omega

theorem runAccesses_numLeaves : ∀ (ops : List AccessStep) (st : OramState),
    (runAccesses st ops).numLeaves = st.numLeaves := by
  intro ops
  induction ops with
  | nil => intro st; rfl
  | cons s rest ih =>
      intro st
      simp only [runAccesses]
      rw [ih, access_numLeaves]

theorem runAccesses_numBuckets : ∀ (ops : List AccessStep) (st : OramState),
    (runAccesses st ops).numBuckets = st.numBuckets := by
  intro ops
  induction ops with
  | nil => intro st; rfl
  | cons s rest ih =>
      intro st
      simp only [runAccesses]
      rw [ih]
      show 2 ^ ((access st s.op s.block_id s.new_data s.rand).1.height + 1) - 1 = _
      rw [access_height]
      rfl

theorem runAccesses_bucket_capacity : ∀ (ops : List AccessStep) (st : OramState),
    (runAccesses st ops).bucket_capacity = st.bucket_capacity := by
  intro ops
  induction ops with
  | nil => intro st; rfl
  | cons s rest ih =>
      intro st
      simp only [runAccesses]
      rw [ih, access_bucket_capacity]

theorem liveBlocks_init (N bs Z : Nat) : liveBlocks (PathORAM.init N bs Z) = [] := by
  rw [liveBlocks]
  show filterReal ([] ++ treeBlocks (PathORAM.init N bs Z).tree) = []
  rw [List.nil_append, treeBlocks_init]
  rfl

theorem treeBlocks_length_le : ∀ (tree : List Bucket) (Z : Nat),
    (∀ b ∈ tree, b.blocks.length ≤ Z) →
    (treeBlocks tree).length ≤ tree.length * Z := by
  intro tree
  induction tree with
  | nil => intro Z _; simp [treeBlocks]
  | cons bk rest ih =>
      intro Z h
      have h1 : bk.blocks.length ≤ Z := h bk (List.mem_cons_self _ _)
      have h2 := ih Z (fun b hb => h b (List.mem_cons_of_mem _ hb))
      rw [treeBlocks, List.map_cons, List.flatten_cons, List.length_append]
      rw [treeBlocks] at h2
      simp only [List.length_cons]
      calc bk.blocks.length + (List.map Bucket.blocks rest).flatten.length
          ≤ Z + rest.length * Z := by omega
        _ = (rest.length + 1) * Z := by ring

/-- The stash holds at least all live blocks that do not fit in the
tree. -/
theorem stash_lower_bound (st : OramState) (hwf : WF st) :
    (liveBlocks st).length ≤ st.stash.length + st.numBuckets * st.bucket_capacity := by
  have h1 : (liveBlocks st).length ≤ (st.stash ++ treeBlocks st.tree).length := by
    rw [liveBlocks, filterReal]
    exact List.length_filter_le _ _
  rw [List.length_append] at h1
  have h2 : ∀ b ∈ st.tree, b.blocks.length ≤ st.bucket_capacity := by
    intro b hb
    obtain ⟨i, hilt, rfl⟩ := List.mem_iff_getElem.mp hb
    exact hwf.bucket_size i hilt
  have h3 := treeBlocks_length_le st.tree st.bucket_capacity h2
  rw [hwf.tree_len] at h3
  omega

/-- Writing a list of pairwise-distinct fresh block IDs adds one live
block per write. -/
theorem run_fresh_writes : ∀ (ids : List Int) (st : OramState), WF st →
    0 < st.numLeaves → ids.Nodup →
    (∀ i ∈ ids, ∀ b ∈ liveBlocks st, b.block_id ≠ i) →
    WF (runAccesses st (ids.map (fun i =>
      ⟨"write", i, some [0], ⟨0, 0, fun _ _ => [7]⟩⟩))) ∧
    (liveBlocks (runAccesses st (ids.map (fun i =>
      ⟨"write", i, some [0], ⟨0, 0, fun _ _ => [7]⟩⟩)))).length =
      (liveBlocks st).length + ids.length ∧
    (∀ b ∈ liveBlocks (runAccesses st (ids.map (fun i =>
      ⟨"write", i, some [0], ⟨0, 0, fun _ _ => [7]⟩⟩))),
      b.block_id ∈ ids ∨ b ∈ liveBlocks st) := by
  intro ids
  induction ids with
  | nil =>
      intro st hwf _ _ _
      exact ⟨hwf, by simp [runAccesses], fun b hb => Or.inr hb⟩
  | cons i rest ih =>
      intro st hwf hnl hnd hfresh
      rw [List.nodup_cons] at hnd
      have hr : validRand st ⟨0, 0, fun _ _ => [7]⟩ := ⟨hnl, hnl⟩
      obtain ⟨hwf1, _, hperm⟩ := access_write_spec st i [0] ⟨0, 0, fun _ _ => [7]⟩ hwf hr
      have hfilter : (liveBlocks st).filter (fun b => b.block_id != i) = liveBlocks st := by
        rw [List.filter_eq_self]
        intro b hb
        simpa using hfresh i (List.mem_cons_self _ _) b hb
      rw [hfilter] at hperm
      have hnl1 : 0 < (access st "write" i (some [0]) ⟨0, 0, fun _ _ => [7]⟩).1.numLeaves := by
        rw [access_numLeaves]; exact hnl
      have hfresh1 : ∀ i' ∈ rest, ∀ b ∈
          liveBlocks (access st "write" i (some [0]) ⟨0, 0, fun _ _ => [7]⟩).1,
          b.block_id ≠ i' := by
        intro i' hi' b hb
        have := hperm.subset hb
        rcases List.mem_cons.mp this with rfl | hmem
        · intro h
          have hii : i = i' := h
          exact hnd.1 (hii ▸ hi')
        · exact hfresh i' (List.mem_cons_of_mem _ hi') b hmem
      obtain ⟨hwfF, hlenF, hmemF⟩ := ih _ hwf1 hnl1 hnd.2 hfresh1
      simp only [List.map_cons, runAccesses]
      refine ⟨hwfF, ?_, ?_⟩
      · rw [hlenF, hperm.length_eq]
        simp only [List.length_cons]
        omega
      · intro b hb
        rcases hmemF b hb with h | h
        · exact Or.inl (List.mem_cons_of_mem _ h)
        · have := hperm.subset h
          rcases List.mem_cons.mp this with rfl | hmem
          · exact Or.inl (List.mem_cons_self _ _)
          · exact Or.inr hmem

theorem modelRun_lastStored : ∀ (ops : List PoolOp) (m : String → Option (List Nat))
    (k : String), modelRun m ops k =
      match lastStored k ops with
      | some v => some v
      | none => m k := by
  intro ops
  induction ops with
  | nil => intro m k; rfl
  | cons op rest ih =>
      intro m k
      simp only [modelRun, lastStored]
      rw [ih]
      cases hrest : lastStored k rest with
      | some v => rfl
      | none =>
          cases op with
          | store k' v r =>
              simp only [modelStep]
              by_cases hk : k' = k
              · rw [if_pos hk, if_pos (by rw [hk])]
              · rw [if_neg hk, if_neg (fun h => hk (by rw [h]))]
          | retrieve k' r => rfl

/-! ## Claim theorems -/

/-- Claim C1 (code bug): the claim states that every bucket slot at rest
is AEAD-encrypted, the path-read step decrypting and the write-back step
re-encrypting every slot with a fresh nonce.  The code defines
`_encrypt_block` / `_decrypt_block` with exactly that layout but
`access` never calls them: buckets hold plaintext `Block` objects.  This
theorem evaluates the code at the failing input: after
`PathORAM(num_blocks=4, block_size=4)` and `write(5, [1,2,3])` with both
leaf draws 0, tree bucket 3 holds the block with its ID and zero-padded
payload readable in the clear. -/
theorem c1_plaintext_slot_at_rest :
    (((PathORAM.init 4 4 4).write 5 [1, 2, 3]
        ⟨0, 0, fun _ _ => [9, 9, 9, 9]⟩).tree.getD 3
      { blocks := [], capacity := 0 }).blocks.head? =
      some { block_id := 5, data := [1, 2, 3, 0], is_dummy := false } := by decide

/-- Claim C2: for every sequence of `store`/`retrieve` operations on the
ORAM pool and every key `k` whose last store wrote `v`, `retrieve(k)`
returns `v` zero-padded (or truncated) to `block_size` and then stripped
of trailing zero bytes.  The randomness of every engine access is passed
in explicitly and assumed in range. -/
theorem c2_retrieve_returns_last_store (capacity bs : Nat) (ops : List PoolOp)
    (k : String) (v : List Nat) (r : AccessRand)
    (hops : ∀ op ∈ ops, validRand (ORAMPool.init capacity bs).oram op.rand)
    (hr : validRand (ORAMPool.init capacity bs).oram r)
    (hlast : lastStored k ops = some v) :
    (ORAMPool.retrieve (runPool (ORAMPool.init capacity bs) ops) k r).2.1 =
      some (rstripZeros (padTrunc bs v)) := by
  have hinv0 : PoolInv (ORAMPool.init capacity bs) (fun _ => none) := by
    refine ⟨WF_init capacity bs 4, le_refl 0, ?_, ?_, ?_⟩
    · intro k' i h
      exact absurd h (by simp [ORAMPool.init])
    · intro k1 k2 i h1 h2
      exact absurd h1 (by simp [ORAMPool.init])
    · intro k' v' h
      exact absurd h (by simp)
  have hinv := runPool_inv ops _ _ hinv0 hops
  have hm : modelRun (fun _ => none) ops k = some v := by
    rw [modelRun_lastStored, hlast]
  have hr' : validRand (runPool (ORAMPool.init capacity bs) ops).oram r := by
    rw [validRand, runPool_numLeaves]
    exact hr
  have hres := pool_retrieve_result _ _ k v r hinv hr' hm
  rw [runPool_block_size] at hres
  exact hres

/-- Claim C2 witness: two stores to the same key followed by a retrieve
return the second value. -/
theorem c2_witness :
    lastStored "k" [PoolOp.store "k" [7] ⟨0, 0, fun _ _ => [1]⟩,
      PoolOp.store "k" [8] ⟨0, 0, fun _ _ => [1]⟩] = some [8] ∧
    (ORAMPool.retrieve (runPool (ORAMPool.init 2 1)
      [PoolOp.store "k" [7] ⟨0, 0, fun _ _ => [1]⟩,
       PoolOp.store "k" [8] ⟨0, 0, fun _ _ => [1]⟩]) "k"
      ⟨0, 0, fun _ _ => [1]⟩).2.1 = some (rstripZeros (padTrunc 1 [8])) :=
  ⟨by decide, c2_retrieve_returns_last_store 2 1 _ "k" [8] _
    (by decide) (by decide) (by decide)⟩

/-- Claim C3 counterexample: the claim states that after construction
and after every access every one of the `2^(H+1) − 1` buckets holds
exactly `Z` blocks.  At the explicit input `PathORAM(num_blocks=16,
block_size=64)` (`Z = 4`) the fresh tree's buckets are all empty, and
after a concrete access the off-path bucket 2 of a
`PathORAM(num_blocks=4, block_size=4)` engine still holds 0 blocks. -/
theorem c3_counterexample :
    ¬ (∀ i, i < (PathORAM.init 16 64 4).tree.length →
        ((PathORAM.init 16 64 4).tree.getD i { blocks := [], capacity := 0 }).blocks.length = 4) ∧
    ((PathORAM.init 16 64 4).tree.getD 0 { blocks := [], capacity := 0 }).blocks.length = 0 ∧
    (((PathORAM.init 4 4 4).write 5 [1, 2, 3]
        ⟨0, 0, fun _ _ => [9, 9, 9, 9]⟩).tree.getD 2
      { blocks := [], capacity := 0 }).blocks.length = 0 := by
  refine ⟨?_, by decide, by decide⟩
  intro h
  have := h 0 (by decide)
  simp [PathORAM.init] at this

/-- Claim C3 as amended: after construction every bucket is empty; after
every access each bucket on the accessed path holds exactly `Z` blocks
(real plus dummy padding), every off-path bucket is unchanged, and every
bucket always holds at most `Z` blocks. -/
theorem c3_amended :
    (∀ (N bs Z i : Nat), ∀ h : i < (PathORAM.init N bs Z).tree.length,
      (PathORAM.init N bs Z).tree[i].blocks.length = 0) ∧
    (∀ (st : OramState) (op : String) (id : Int) (nd : Option (List Nat)) (r : AccessRand),
      WF st → validRand st r →
      (∀ j ∈ getPathIndices st.height (oldLeafOf st id r), ∃ bk : Bucket,
        (access st op id nd r).1.tree[j]? = some bk ∧
        bk.blocks.length = st.bucket_capacity) ∧
      (∀ j, j < st.tree.length → j ∉ getPathIndices st.height (oldLeafOf st id r) →
        (access st op id nd r).1.tree[j]? = st.tree[j]?) ∧
      (∀ i, ∀ h : i < (access st op id nd r).1.tree.length,
        (access st op id nd r).1.tree[i].blocks.length ≤ st.bucket_capacity)) := by
  constructor
  · intro N bs Z i h
    rw [init_tree_getElem N bs Z i h]
    rfl
  · intro st op id nd r hwf hr
    obtain ⟨_, _, _, hlen, hoff, hpath⟩ := access_bucket_spec st op id nd r hwf hr
    refine ⟨?_, hoff, ?_⟩
    · intro j hj
      obtain ⟨bk, heq, hblen, _⟩ := hpath j hj
      exact ⟨bk, heq, hblen⟩
    · intro i hi
      have hilt : i < st.tree.length := by rw [← hlen]; exact hi
      by_cases hiP : i ∈ getPathIndices st.height (oldLeafOf st id r)
      · obtain ⟨bk, heq, hblen, _⟩ := hpath i hiP
        rw [getElem_eq_of_getElem? hi heq, hblen]
      · have := hoff i hilt hiP
        rw [getElem_eq_of_getElem? hi (by rw [this]; exact List.getElem?_eq_getElem hilt)]
        exact hwf.bucket_size i hilt

/-- Claim C3 amended witness: a concrete engine whose path buckets are
written back full while the off-path buckets are untouched. -/
theorem c3_amended_witness :
    WF (PathORAM.init 2 1 4) ∧ validRand (PathORAM.init 2 1 4) ⟨0, 0, fun _ _ => [7]⟩ ∧
    (∀ j ∈ getPathIndices (PathORAM.init 2 1 4).height
        (oldLeafOf (PathORAM.init 2 1 4) 0 ⟨0, 0, fun _ _ => [7]⟩), ∃ bk : Bucket,
      (access (PathORAM.init 2 1 4) "write" 0 (some [5]) ⟨0, 0, fun _ _ => [7]⟩).1.tree[j]? =
        some bk ∧ bk.blocks.length = (PathORAM.init 2 1 4).bucket_capacity) ∧
    (∀ j, j < (PathORAM.init 2 1 4).tree.length →
      j ∉ getPathIndices (PathORAM.init 2 1 4).height
        (oldLeafOf (PathORAM.init 2 1 4) 0 ⟨0, 0, fun _ _ => [7]⟩) →
      (access (PathORAM.init 2 1 4) "write" 0 (some [5]) ⟨0, 0, fun _ _ => [7]⟩).1.tree[j]? =
        (PathORAM.init 2 1 4).tree[j]?) :=
  ⟨WF_init 2 1 4, by decide,
    (c3_amended.2 (PathORAM.init 2 1 4) "write" 0 (some [5]) ⟨0, 0, fun _ _ => [7]⟩
      (WF_init 2 1 4) (by decide)).1,
    (c3_amended.2 (PathORAM.init 2 1 4) "write" 0 (some [5]) ⟨0, 0, fun _ _ => [7]⟩
      (WF_init 2 1 4) (by decide)).2.1⟩

/-- Claim C4: after every access in any sequence starting from a fresh
engine, every live real block resides either in the stash or in a bucket
on the root-to-leaf path of its position-map leaf and nowhere else
(`WF.tree_placed`), live block IDs are globally unique
(`WF.ids_nodup`), and every stash block is a real mapped block; together
these make the multiset union of stash blocks and on-path blocks exactly
the set of live blocks. -/
theorem c4_placement_invariant (N bs Z : Nat) (ops : List AccessStep)
    (hops : ∀ s ∈ ops, s.wf ∧ validRand (PathORAM.init N bs Z) s.rand) :
    WF (runAccesses (PathORAM.init N bs Z) ops) :=
  runAccesses_WF ops (PathORAM.init N bs Z) (WF_init N bs Z) hops

/-- Claim C4 witness: the invariant after a concrete write access. -/
theorem c4_witness :
    (∀ s ∈ [(⟨"write", 0, some [1], ⟨0, 0, fun _ _ => [7]⟩⟩ : AccessStep)],
      s.wf ∧ validRand (PathORAM.init 2 1 1) s.rand) ∧
    WF (runAccesses (PathORAM.init 2 1 1)
      [⟨"write", 0, some [1], ⟨0, 0, fun _ _ => [7]⟩⟩]) :=
  ⟨by decide, c4_placement_invariant 2 1 1 _ (by decide)⟩

/-- Claim C5: every access touches exactly the `H+1` buckets with
indices `path_indices(ℓ_old)` — those indices are pairwise distinct,
in range, contain the leaf slot `2^H − 1 + ℓ`, every off-path bucket is
left untouched and every on-path bucket is rewritten — with
`H = max(1, ⌈log₂ N⌉)` for `num_blocks = N > 1`, and `H = 1` (path
length 2) for `num_blocks = 1`. -/
theorem c5_path_reads_and_writes :
    (∀ (st : OramState) (op : String) (id : Int) (nd : Option (List Nat)) (r : AccessRand),
      WF st → validRand st r →
      (getPathIndices st.height (oldLeafOf st id r)).length = st.height + 1 ∧
      (getPathIndices st.height (oldLeafOf st id r)).Nodup ∧
      (∀ i ∈ getPathIndices st.height (oldLeafOf st id r), i < st.tree.length) ∧
      (2 ^ st.height - 1 + oldLeafOf st id r) ∈
        getPathIndices st.height (oldLeafOf st id r) ∧
      (access st op id nd r).1.tree.length = st.tree.length ∧
      (∀ j, j < st.tree.length → j ∉ getPathIndices st.height (oldLeafOf st id r) →
        (access st op id nd r).1.tree[j]? = st.tree[j]?) ∧
      (∀ j ∈ getPathIndices st.height (oldLeafOf st id r), ∃ bk : Bucket,
        (access st op id nd r).1.tree[j]? = some bk)) ∧
    (∀ N bs Z, 1 ≤ N → (PathORAM.init N bs Z).height = max 1 (Nat.clog 2 N)) ∧
    (∀ bs Z, (PathORAM.init 1 bs Z).height = 1 ∧
      ∀ leaf, leaf < 2 →
        (getPathIndices (PathORAM.init 1 bs Z).height leaf).length = 2) := by
  refine ⟨?_, ?_, ?_⟩
  · intro st op id nd r hwf hr
    obtain ⟨h1, h2, h3, h4, h5, h6⟩ := access_bucket_spec st op id nd r hwf hr
    exact ⟨h1, h2, h3, getPathIndices_mem_leafIdx _ _, h4, h5,
      fun j hj => (h6 j hj).imp (fun bk hbk => hbk.1)⟩
  · intro N bs Z hN
    rw [init_height, ceilLog2_eq_clog]
    by_cases h1 : N > 1
    · rw [if_pos h1]
    · have hN1 : N = 1 := by omega
      subst hN1
      simp [Nat.clog]
  · intro bs Z
    refine ⟨rfl, ?_⟩
    intro leaf hleaf
    exact getPathIndices_length 1 leaf (by omega)

/-- Claim C5 witness: the path facts at a concrete engine and access. -/
theorem c5_witness :
    WF (PathORAM.init 2 1 4) ∧ validRand (PathORAM.init 2 1 4) ⟨1, 0, fun _ _ => [7]⟩ ∧
    (getPathIndices (PathORAM.init 2 1 4).height
        (oldLeafOf (PathORAM.init 2 1 4) 3 ⟨1, 0, fun _ _ => [7]⟩)).length =
      (PathORAM.init 2 1 4).height + 1 ∧
    1 ≤ 2 ∧ (PathORAM.init 2 1 4).height = max 1 (Nat.clog 2 2) :=
  ⟨WF_init 2 1 4, by decide,
    (c5_path_reads_and_writes.1 (PathORAM.init 2 1 4) "read" 3 none
      ⟨1, 0, fun _ _ => [7]⟩ (WF_init 2 1 4) (by decide)).1,
    by decide, c5_path_reads_and_writes.2.1 2 1 4 (by decide)⟩

/-- Claim C6 counterexample: the claim states that a stash beyond
`const_stash_limit = 128` blocks is treated as a fatal invariant
violation and the engine aborts.  No such limit exists anywhere in the
code: after 132 fresh writes on `PathORAM(num_blocks=2, block_size=1,
bucket_capacity=1)` with all leaf draws 0, the stash holds more than 128
blocks, yet the engine has served all 132 accesses and serves the next
write normally. -/
theorem c6_counterexample :
    128 < (runAccesses (PathORAM.init 2 1 1) (freshWriteSteps 132)).stash.length ∧
    (runAccesses (PathORAM.init 2 1 1) (freshWriteSteps 132)).access_count = 132 ∧
    (access (runAccesses (PathORAM.init 2 1 1) (freshWriteSteps 132)) "write" 200
      (some [0]) ⟨0, 0, fun _ _ => [7]⟩).2 = none ∧
    (access (runAccesses (PathORAM.init 2 1 1) (freshWriteSteps 132)) "write" 200
      (some [0]) ⟨0, 0, fun _ _ => [7]⟩).1.access_count = 133 := by
  have hinj : Function.Injective (fun i : Nat => (i : Int)) := fun a b h => by
    have h' : (a : Int) = (b : Int) := h
    exact_mod_cast h'
  have hids : (((List.range 132).map (fun i : Nat => (i : Int)))).Nodup :=
    List.Nodup.map hinj (List.nodup_range 132)
  have hmain := run_fresh_writes ((List.range 132).map (fun i : Nat => (i : Int)))
    (PathORAM.init 2 1 1) (WF_init 2 1 1) (by decide) hids
    (by intro i _ b hb
        rw [liveBlocks_init] at hb
        exact absurd hb (List.not_mem_nil b))
  have hsteps : freshWriteSteps 132 =
      ((List.range 132).map (fun i : Nat => (i : Int))).map (fun i =>
        ⟨"write", i, some [0], ⟨0, 0, fun _ _ => [7]⟩⟩) := rfl
  rw [← hsteps] at hmain
  obtain ⟨hwfF, hlen, _⟩ := hmain
  have hlive : (liveBlocks (runAccesses (PathORAM.init 2 1 1)
      (freshWriteSteps 132))).length = 132 := by
    rw [hlen, liveBlocks_init]
    simp
  have hbound := stash_lower_bound _ hwfF
  rw [hlive, runAccesses_numBuckets, runAccesses_bucket_capacity] at hbound
  have hnb : (PathORAM.init 2 1 1).numBuckets = 3 := by decide
  have hcap : (PathORAM.init 2 1 1).bucket_capacity = 1 := rfl
  rw [hnb, hcap] at hbound
  have hcount : (runAccesses (PathORAM.init 2 1 1)
      (freshWriteSteps 132)).access_count = 132 := by
    rw [runAccesses_access_count]
    simp [freshWriteSteps]
    rfl
  have hvalid : validRand (runAccesses (PathORAM.init 2 1 1) (freshWriteSteps 132))
      (⟨0, 0, fun _ _ => [7]⟩ : AccessRand) := by
    constructor
    · show 0 < (runAccesses (PathORAM.init 2 1 1) (freshWriteSteps 132)).numLeaves
      rw [runAccesses_numLeaves]
      decide
    · show 0 < (runAccesses (PathORAM.init 2 1 1) (freshWriteSteps 132)).numLeaves
      rw [runAccesses_numLeaves]
      decide
  have hserve := access_write_spec _ 200 [0] (⟨0, 0, fun _ _ => [7]⟩ : AccessRand)
    hwfF hvalid
  refine ⟨by omega, hcount, hserve.2.1, ?_⟩
  rw [access_access_count, hcount]

/-- Claim C6 as amended: the engine enforces no stash limit at all;
every access merely increments `access_count` and records the stash
high-water mark `stash_peak = max(stash_peak, len(stash))`, continuing
to serve accesses regardless of stash size. -/
theorem c6_amended : ∀ (st : OramState) (op : String) (id : Int)
    (nd : Option (List Nat)) (r : AccessRand),
    (access st op id nd r).1.access_count = st.access_count + 1 ∧
    (access st op id nd r).1.stash_peak =
      max st.stash_peak (access st op id nd r).1.stash.length :=
  fun _ _ _ _ _ => ⟨rfl, rfl⟩

/-- Claim C7: retrieving a key absent from the pool's `key_to_id` table
returns `none` with metrics `{pool := "oram", found := false}` and
leaves the whole pool state — engine tree, stash, position map and
`access_count` included — unchanged. -/
theorem c7_unknown_key_no_access (p : PoolState) (k : String) (r : AccessRand)
    (h : p.key_to_id k = none) :
    ORAMPool.retrieve p k r =
      (p, none, { pool := "oram", found := some false, access_count := none }) :=
  retrieve_state_unknown p k r h

/-- Claim C7 witness: a fresh pool has no key `"missing"`. -/
theorem c7_witness :
    (ORAMPool.init 4 4).key_to_id "missing" = none ∧
    ORAMPool.retrieve (ORAMPool.init 4 4) "missing" ⟨0, 0, fun _ _ => [1]⟩ =
      ((ORAMPool.init 4 4), none,
        { pool := "oram", found := some false, access_count := none }) :=
  ⟨rfl, c7_unknown_key_no_access (ORAMPool.init 4 4) "missing"
    ⟨0, 0, fun _ _ => [1]⟩ rfl⟩

/-- Claim C8: the router stores to the ORAM pool iff the lower-cased key
starts with one of the six sensitive prefixes and to the Standard pool
otherwise; classification depends only on the lower-cased key (so keys
differing only in case route identically), and two keys of which exactly
one is sensitive route to different pools. -/
theorem c8_routing_classification :
    SENSITIVE_PREFIXES = ["session_key:", "ephemeral:", "secret:",
      "credential:", "private:", "token:"] ∧
    (∀ key : String, isSensitive key = true ↔
      ∃ p ∈ SENSITIVE_PREFIXES, strStartsWith (strLower key) p = true) ∧
    (∀ (enc : List Nat → List Nat → List Nat) (rs : RouterState) (key : String)
        (value : List Nat) (r : AccessRand) (nonce : List Nat),
      (Router.store enc rs key value r nonce).2.routed_to =
        if isSensitive key then "oram" else "standard") ∧
    (∀ k1 k2 : String, strLower k1 = strLower k2 → isSensitive k1 = isSensitive k2) ∧
    (∀ (enc1 enc2 : List Nat → List Nat → List Nat) (rs1 rs2 : RouterState)
        (k1 k2 : String) (v1 v2 : List Nat) (r1 r2 : AccessRand) (n1 n2 : List Nat),
      isSensitive k1 = true → isSensitive k2 = false →
      (Router.store enc1 rs1 k1 v1 r1 n1).2.routed_to ≠
        (Router.store enc2 rs2 k2 v2 r2 n2).2.routed_to) := by
  have hroute : ∀ (enc : List Nat → List Nat → List Nat) (rs : RouterState)
      (key : String) (value : List Nat) (r : AccessRand) (nonce : List Nat),
      (Router.store enc rs key value r nonce).2.routed_to =
        if isSensitive key then "oram" else "standard" := by
    intro enc rs key value r nonce
    by_cases h : isSensitive key = true
    · rw [if_pos h]
      simp only [Router.store, if_pos h]
    · rw [if_neg h]
      simp only [Router.store, if_neg h]
  refine ⟨rfl, ?_, hroute, ?_, ?_⟩
  · intro key
    rw [isSensitive, List.any_eq_true]
  · intro k1 k2 h
    rw [isSensitive, isSensitive, h]
  · intro enc1 enc2 rs1 rs2 k1 k2 v1 v2 r1 r2 n1 n2 h1 h2
    rw [hroute, hroute, if_pos h1, if_neg (by rw [h2]; exact Bool.false_ne_true)]
    decide

/-- Claim C8 witness: `"SECRET:x"` and `"secret:x"` classify alike and
route to ORAM; `"config:x"` routes to Standard. -/
theorem c8_witness :
    strLower "SECRET:x" = strLower "secret:x" ∧
    isSensitive "SECRET:x" = isSensitive "secret:x" ∧
    isSensitive "secret:x" = true ∧ isSensitive "config:x" = false ∧
    (Router.store (fun _ v => v) (Router.init 4 4) "secret:x" [1]
        ⟨0, 0, fun _ _ => [1]⟩ [0]).2.routed_to ≠
      (Router.store (fun _ v => v) (Router.init 4 4) "config:x" [2]
        ⟨0, 0, fun _ _ => [1]⟩ [0]).2.routed_to :=
  ⟨by decide, c8_routing_classification.2.2.2.1 "SECRET:x" "secret:x" (by decide),
    by decide, by decide,
    c8_routing_classification.2.2.2.2 (fun _ v => v) (fun _ v => v)
      (Router.init 4 4) (Router.init 4 4) "secret:x" "config:x" [1] [2]
      ⟨0, 0, fun _ _ => [1]⟩ ⟨0, 0, fun _ _ => [1]⟩ [0] [0]
      (by decide) (by decide)⟩

/-- Claim C9: write-back traverses the path buckets leaf to root (the
reversed root-to-leaf index list) and each eviction pass packs the
eligible stash blocks — real blocks whose mapped leaf's path contains
the bucket's index — in stash order up to the bucket's free capacity,
the packed blocks leaving the stash and the rest staying in order; the
pass is a pure function of the stash order and the position map. -/
theorem c9_greedy_eviction :
    (∀ (pm : Int → Option Nat) (height bucket_idx : Nat)
        (stash : List Block) (bk : Bucket),
      evictLoop pm height bucket_idx bk stash =
        ({ blocks := bk.blocks ++ (stash.filter (eligB pm height bucket_idx)).take
            (bk.capacity - bk.blocks.length), capacity := bk.capacity },
          remAfter (eligB pm height bucket_idx)
            (bk.capacity - bk.blocks.length) stash)) ∧
    (∀ (st : OramState) (op : String) (id : Int) (nd : Option (List Nat))
        (r : AccessRand),
      (access st op id nd r).1.tree =
        (writeBackLoop (pmStep2 st id r) st.height r.dummy 0
          (getPathIndices st.height (oldLeafOf st id r)).reverse
          (readPath st.tree st.stash (getPathIndices st.height (oldLeafOf st id r))).1
          (accessStash3 st op id nd r)).1) ∧
    (∀ (elig : Block → Bool) (stash : List Block) (free : Nat),
      ((stash.filter elig).take free ++ remAfter elig free stash).Perm stash) :=
  ⟨fun pm height bucket_idx stash bk => evictLoop_eq pm height bucket_idx stash bk,
    fun st op id nd r => access_tree st op id nd r,
    fun elig stash free => take_filter_append_remAfter_perm elig stash free⟩

/-- Claim C10: `Router.retrieve` never changes the routing counters;
only `Router.store` increments them — `oram_routes` when the key is
sensitive, `standard_routes` otherwise — so `total_routes` counts store
operations only. -/
theorem c10_counters_frame :
    (∀ (dec : List Nat → List Nat → List Nat) (rs : RouterState) (key : String)
        (r : AccessRand),
      (Router.retrieve dec rs key r).1.oram_routes = rs.oram_routes ∧
      (Router.retrieve dec rs key r).1.standard_routes = rs.standard_routes ∧
      Router.totalRoutes (Router.retrieve dec rs key r).1 = Router.totalRoutes rs) ∧
    (∀ (enc : List Nat → List Nat → List Nat) (rs : RouterState) (key : String)
        (value : List Nat) (r : AccessRand) (nonce : List Nat),
      (isSensitive key = true →
        (Router.store enc rs key value r nonce).1.oram_routes = rs.oram_routes + 1 ∧
        (Router.store enc rs key value r nonce).1.standard_routes =
          rs.standard_routes) ∧
      (isSensitive key = false →
        (Router.store enc rs key value r nonce).1.standard_routes =
          rs.standard_routes + 1 ∧
        (Router.store enc rs key value r nonce).1.oram_routes = rs.oram_routes)) := by
  constructor
  · intro dec rs key r
    by_cases h : isSensitive key = true
    · simp [Router.retrieve, h, Router.totalRoutes]
    · simp [Router.retrieve, h, Router.totalRoutes]
  · intro enc rs key value r nonce
    constructor
    · intro h
      simp [Router.store, h]
    · intro h
      simp [Router.store, h]

/-- Claim C10 witness: a retrieve on a fresh router leaves both counters
at zero; a sensitive store bumps only `oram_routes`. -/
theorem c10_witness :
    ((Router.retrieve (fun _ v => v) (Router.init 4 4) "secret:x"
        ⟨0, 0, fun _ _ => [1]⟩).1.oram_routes = (Router.init 4 4).oram_routes ∧
      (Router.retrieve (fun _ v => v) (Router.init 4 4) "secret:x"
        ⟨0, 0, fun _ _ => [1]⟩).1.standard_routes = (Router.init 4 4).standard_routes ∧
      Router.totalRoutes (Router.retrieve (fun _ v => v) (Router.init 4 4) "secret:x"
        ⟨0, 0, fun _ _ => [1]⟩).1 = Router.totalRoutes (Router.init 4 4)) ∧
    isSensitive "secret:x" = true ∧
    (Router.store (fun _ v => v) (Router.init 4 4) "secret:x" [1]
        ⟨0, 0, fun _ _ => [1]⟩ [0]).1.oram_routes = (Router.init 4 4).oram_routes + 1 :=
  ⟨c10_counters_frame.1 (fun _ v => v) (Router.init 4 4) "secret:x"
      ⟨0, 0, fun _ _ => [1]⟩,
    by decide,
    ((c10_counters_frame.2 (fun _ v => v) (Router.init 4 4) "secret:x" [1]
      ⟨0, 0, fun _ _ => [1]⟩ [0]).1 (by decide)).1⟩

end ACB
